import Mathlib

/-!
Verification of the cubicasa dataset cache core (src/cubicasa/__init__.py):
the key flattening scheme (`flatten` / `unflatten`), the fast binary array
decoder (`fastload`), the artifact cache policy (`svg_data` / `geometry_data`),
the parallel derivation filter (`safe_geometry` + the filter in
`geometry_data`), and the deterministic sampler (`sample`).

Python strings are modelled as `List Char`, byte blobs as `List Nat`
(entries below 256 where it matters), and Python dicts as insertion-ordered
association lists, which is how CPython dicts iterate.  Exceptions are
modelled with `Option` / `Except`.
-/

namespace Cubicasa

/-- Keys of the nested mappings: Python strings, as lists of characters. -/
abbrev Key := List Char

/-- A value of the nested-mapping layer: either a leaf (an array, kept
abstract as `α`) or a nested mapping, modelled as an insertion-ordered
association list. -/
inductive Entry (α : Type) where
  | leaf (v : α)
  | dict (d : List (Key × Entry α))

/-- `d[k]` on an insertion-ordered dict: first (unique) matching key. -/
def lookupD {α : Type} (d : List (Key × α)) (k : Key) : Option α :=
  match d with
  | [] => none
  | (k', v) :: rest => if k' = k then some v else lookupD rest k

/-- `d[k] = v` on an insertion-ordered dict: overwrite in place if the key is
present, append at the end otherwise (CPython dict assignment). -/
def setD {α : Type} (d : List (Key × α)) (k : Key) (v : α) : List (Key × α) :=
  match d with
  | [] => [(k, v)]
  | (k', v') :: rest => if k' = k then (k, v) :: rest else (k', v') :: setD rest k v

mutual
/-- Embedding of `flatten` (src/cubicasa/__init__.py, lines 60-68) on one
dict: leaves stay put, sub-dicts contribute their flattening with the parent
key prefixed. -/
def flattenD {α : Type} : List (Key × Entry α) → List (Key × α)
  | [] => []
  | (k, e) :: rest => flattenE k e ++ flattenD rest

/-- Contribution of a single entry `(k, e)` to `flatten`: for a sub-dict
every inner key `kk` becomes `k ++ "/" ++ kk`. -/
def flattenE {α : Type} (k : Key) : Entry α → List (Key × α)
  | .leaf v => [(k, v)]
  | .dict d => (flattenD d).map (fun p => (k ++ '/' :: p.1, p.2))
end

/-- Python `s.split('/')` on a key. -/
def splitSlash : Key → List Key
  | [] => [[]]
  | c :: rest =>
    if c = '/' then [] :: splitSlash rest
    else
      match splitSlash rest with
      | [] => [[c]]
      | p :: ps => (c :: p) :: ps

/-- One iteration of the `unflatten` loop (src/cubicasa/__init__.py, lines
70-78): walk / create intermediate nodes for `parts[:-1]` via `setdefault`,
then assign the leaf at `parts[-1]`.  Hitting a non-dict value at an
intermediate node raises in Python (`setdefault` / item assignment on an
array); modelled as `none`. -/
def insertPath {α : Type} (d : List (Key × Entry α)) (parts : List Key) (v : α) :
    Option (List (Key × Entry α)) :=
  match parts with
  | [] => none
  | [last] => some (setD d last (.leaf v))
  | p :: rest =>
    match lookupD d p with
    | some (.dict sub) => (insertPath sub rest v).map (fun sub' => setD d p (.dict sub'))
    | some (.leaf _) => none
    | none => (insertPath ([] : List (Key × Entry α)) rest v).map
        (fun sub' => d ++ [(p, .dict sub')])

/-- `unflatten` folded over the items of the flat dict, starting from a given
tree (the source starts from the empty tree). -/
def insertAll {α : Type} (t : List (Key × Entry α)) (flat : List (Key × α)) :
    Option (List (Key × Entry α)) :=
  flat.foldlM (fun t p => insertPath t (splitSlash p.1) p.2) t

/-- Embedding of `unflatten` (src/cubicasa/__init__.py, lines 70-78). -/
def unflattenD {α : Type} (flat : List (Key × α)) : Option (List (Key × Entry α)) :=
  insertAll [] flat

mutual
/-- Well-formed input trees for the round-trip claim: keys contain no `'/'`,
keys at each level are distinct, and every nested mapping is nonempty. -/
def wfD {α : Type} : List (Key × Entry α) → Bool
  | [] => true
  | (k, e) :: rest =>
    !(k.contains '/') && rest.all (fun p => p.1 != k) && wfE e && wfD rest

/-- Well-formedness of a single entry value. -/
def wfE {α : Type} : Entry α → Bool
  | .leaf _ => true
  | .dict d => !d.isEmpty && wfD d
end

/-- Prefixing every key of a flat dict with `k ++ "/"`, as `flatten` does for
the entries of a sub-dict. -/
def prefixK {α : Type} (k : Key) (flat : List (Key × α)) : List (Key × α) :=
  flat.map (fun p => (k ++ '/' :: p.1, p.2))

/-! ## The binary array codec (`fastload` and the upstream writer format)

The header region of a blob is an ASCII Python literal; `fastload` recovers
it with `ast.literal_eval`.  The grammar below covers the canonical literal
form the writer emits (a dict of quoted keys mapping to quoted strings or
tuples of integers); `ast.literal_eval` accepts a superset of it. -/

/-- The ASCII quote character `'`. -/
def quoteC : Char := Char.ofNat 39

/-- The ASCII opening brace. -/
def lbraceC : Char := Char.ofNat 123

/-- The ASCII closing brace. -/
def rbraceC : Char := Char.ofNat 125

/-- The characters of the header key `descr`. -/
def descrKeyCs : List Char := ['d', 'e', 's', 'c', 'r']

/-- The characters of the header key `shape`. -/
def shapeKeyCs : List Char := ['s', 'h', 'a', 'p', 'e']

/-- ASCII decimal digit test. -/
def isDigitC (c : Char) : Bool := 48 ≤ c.toNat && c.toNat ≤ 57

/-- Parse a nonempty run of decimal digits at the head of the input. -/
def parseNat (cs : List Char) : Option (Nat × List Char) :=
  let ds := cs.takeWhile isDigitC
  if ds.isEmpty then none
  else some (ds.foldl (fun a c => 10 * a + (c.toNat - 48)) 0, cs.dropWhile isDigitC)

/-- Parse a decimal integer literal (optional leading minus). -/
def parseInt (cs : List Char) : Option (Int × List Char) :=
  match cs with
  | [] => none
  | c :: rest =>
    if c = '-' then (parseNat rest).map (fun p => (-(p.1 : Int), p.2))
    else (parseNat cs).map (fun p => ((p.1 : Int), p.2))

/-- Parse a quoted string body (the opening quote already consumed): the
characters up to the next quote. -/
def parseStr : List Char → Option (List Char × List Char)
  | [] => none
  | c :: rest =>
    if c = quoteC then some ([], rest)
    else (parseStr rest).map (fun p => (c :: p.1, p.2))

/-- Parse the remainder of a tuple after its first element: either the
closing paren, a singleton trailing comma, or `, x` continuations.  The fuel
bounds the number of elements (callers pass the input length). -/
def parseTupleTail : Nat → List Char → Option (List Int × List Char)
  | _, ')' :: rest => some ([], rest)
  | _, ',' :: ')' :: rest => some ([], rest)
  | fuel + 1, ',' :: ' ' :: rest =>
    match parseInt rest with
    | none => none
    | some (x, r1) => (parseTupleTail fuel r1).map (fun q => (x :: q.1, q.2))
  | _, _ => none

/-- Parse a tuple of integers (the opening paren already consumed). -/
def parseTuple (fuel : Nat) (cs : List Char) : Option (List Int × List Char) :=
  match cs with
  | [] => none
  | c :: rest =>
    if c = ')' then some ([], rest)
    else
      match parseInt cs with
      | none => none
      | some (x, r1) => (parseTupleTail fuel r1).map (fun q => (x :: q.1, q.2))

/-- A parsed Python literal value: a string or a tuple of integers (the two
value forms occurring in array headers). -/
inductive PyVal where
  | str (s : List Char)
  | tuple (l : List Int)
deriving DecidableEq

/-- Parse a literal value: a quoted string or a tuple. -/
def parseVal (fuel : Nat) (cs : List Char) : Option (PyVal × List Char) :=
  match cs with
  | [] => none
  | c :: rest =>
    if c = quoteC then (parseStr rest).map (fun p => (PyVal.str p.1, p.2))
    else if c = '(' then (parseTuple fuel rest).map (fun p => (PyVal.tuple p.1, p.2))
    else none

/-- Parse the `'key': value` pairs of a dict literal (the opening brace
already consumed), up to and including the closing brace.  The fuel bounds
the number of pairs (callers pass the input length). -/
def parsePairs : Nat → List Char → Option (List (List Char × PyVal) × List Char)
  | 0, _ => none
  | fuel + 1, cs =>
    match cs with
    | [] => none
    | c :: rest =>
      if c = quoteC then
        match parseStr rest with
        | none => none
        | some (k, r1) =>
          match r1 with
          | ':' :: ' ' :: r2 =>
            match parseVal fuel r2 with
            | none => none
            | some (v, r3) =>
              match r3 with
              | [] => none
              | c2 :: r4 =>
                if c2 = rbraceC then some ([(k, v)], r4)
                else
                  match c2, r4 with
                  | ',', ' ' :: r5 =>
                    (parsePairs fuel r5).map (fun q => ((k, v) :: q.1, q.2))
                  | _, _ => none
          | _ => none
      else none

/-- `ast.literal_eval` on the header region, restricted to the canonical
dict form: the whole input must be consumed. -/
def parseDict (cs : List Char) : Option (List (List Char × PyVal)) :=
  match cs with
  | [] => none
  | c :: rest =>
    if c = lbraceC then
      match rest with
      | [] => none
      | c2 :: rest2 =>
        if c2 = rbraceC then (if rest2.isEmpty then some [] else none)
        else
          match parsePairs rest.length rest with
          | none => none
          | some (prs, rem) => if rem.isEmpty then some prs else none
    else none

/-- A decimal digit as a character. -/
def digitChar (d : Nat) : Char := Char.ofNat (48 + d)

/-- Little-endian decimal digits with explicit fuel (structural, so the
kernel can evaluate it; callers pass `n` itself as fuel). -/
def natDigitsAux : Nat → Nat → List Nat
  | 0, _ => []
  | fuel + 1, n => if n = 0 then [] else n % 10 :: natDigitsAux fuel (n / 10)

/-- Little-endian decimal digits of `n` (empty for 0). -/
def natDigits (n : Nat) : List Nat := natDigitsAux n n

/-- Decimal representation of a natural number, most significant digit
first. -/
def natToChars (n : Nat) : List Char :=
  if n = 0 then ['0'] else ((natDigits n).map digitChar).reverse

/-- Decimal representation of an integer. -/
def intToChars (x : Int) : List Char :=
  if x < 0 then '-' :: natToChars x.natAbs else natToChars x.natAbs

/-- The characters of a Python tuple repr after its first element. -/
def tupleTailChars : List Int → List Char
  | [] => [')']
  | x :: xs => ',' :: ' ' :: (intToChars x ++ tupleTailChars xs)

/-- The characters of a Python tuple repr: `()`, `(3,)`, `(3, 4)`, ... -/
def tupleChars : List Int → List Char
  | [] => ['(', ')']
  | [x] => '(' :: (intToChars x ++ [',', ')'])
  | x :: xs => '(' :: (intToChars x ++ tupleTailChars xs)

/-- The header literal with the `descr` and `shape` keys, in the canonical
form `{'descr': '<f8', 'shape': (3, 4)}` (braces and quotes spelled via
their code points). -/
def headerChars (descr : List Char) (shape : List Int) : List Char :=
  lbraceC :: quoteC :: descrKeyCs ++ quoteC :: ':' :: ' ' :: quoteC :: descr ++
    quoteC :: ',' :: ' ' :: quoteC :: shapeKeyCs ++ quoteC :: ':' :: ' ' ::
    tupleChars shape ++ [rbraceC]

/-- Byte widths of the element descriptors occurring in this cache's arrays
(little-endian floats/ints, single bytes); `np.frombuffer` rejects
descriptors outside the table. -/
def itemsize (d : List Char) : Option Nat :=
  if d = ['<', 'f', '8'] then some 8
  else if d = ['<', 'f', '4'] then some 4
  else if d = ['<', 'i', '8'] then some 8
  else if d = ['<', 'i', '4'] then some 4
  else if d = ['<', 'u', '2'] then some 2
  else if d = ['|', 'u', '1'] then some 1
  else if d = ['|', 'b', '1'] then some 1
  else none

/-- numpy `reshape` semantics on a declared shape tuple: dimensions below
`-1` are rejected; at most one `-1` is inferred from the element count; a
fully explicit shape must multiply out to the element count. -/
def resolveShape (count : Nat) (shape : List Int) : Option (List Nat) :=
  if shape.any (fun x => x < -1) then none
  else
    match (shape.filter (fun x => x = -1)).length with
    | 0 =>
      if (shape.map Int.toNat).prod = count then some (shape.map Int.toNat) else none
    | 1 =>
      let known := ((shape.filter (fun x => 0 ≤ x)).map Int.toNat).prod
      if known ≠ 0 ∧ count % known = 0 then
        some (shape.map (fun x => if x < 0 then count / known else x.toNat))
      else none
    | _ + 2 => none

/-- A homogeneous numeric array: element descriptor, shape, and the raw
little-endian payload bytes in row-major order. -/
structure NDArray where
  descr : List Char
  shape : List Nat
  payload : List Nat
deriving DecidableEq

/-- The eight fixed magic/version bytes preceding the header-length field of
the upstream writer format. -/
def magicBytes : List Nat := [147, 78, 85, 77, 80, 89, 1, 0]

/-- Modelled from the spec: the codec's writer (§4.1) — `fastload`'s blobs
are produced by the upstream array writer, which is not among the sources.
A fixed prefix, the header-text length at byte offset 8 (low byte, with a
zero high byte at offset 9), `L` bytes of ASCII literal with the `descr`
and `shape` keys, then the raw contiguous payload. -/
def encode (a : NDArray) : List Nat :=
  let hdr := headerChars a.descr (a.shape.map Int.ofNat)
  magicBytes ++ [hdr.length % 256, hdr.length / 256] ++ hdr.map Char.toNat ++ a.payload

/-- Embedding of `fastload` (src/cubicasa/__init__.py, lines 89-99): read the
one-byte header length at offset 8, `literal_eval` exactly `L` bytes starting
at offset 10, look up `descr` and `shape`, reinterpret the remaining bytes as
a flat buffer of that element type and reshape.  Any Python exception
(IndexError, SyntaxError, KeyError, ValueError) is `none`. -/
def fastload (raw : List Nat) : Option NDArray :=
  match raw[8]? with
  | none => none
  | some hl =>
    match parseDict (((raw.drop 10).take hl).map Char.ofNat) with
    | none => none
    | some hdr =>
      match lookupD hdr descrKeyCs, lookupD hdr shapeKeyCs with
      | some (.str descr), some (.tuple shape) =>
        match itemsize descr with
        | none => none
        | some isz =>
          if (raw.drop (10 + hl)).length % isz = 0 then
            match resolveShape ((raw.drop (10 + hl)).length / isz) shape with
            | none => none
            | some rshape => some ⟨descr, rshape, raw.drop (10 + hl)⟩
          else none
      | _, _ => none

/-- A crafted blob whose header declares `descr` `<f8` and `shape` `(-1,)`
over a 16-byte payload: the declared product times the element size is
negative, yet reshape's `-1` inference accepts the blob. -/
def negShapeBlob : List Nat :=
  magicBytes ++ [(headerChars ['<', 'f', '8'] [-1]).length, 0]
    ++ (headerChars ['<', 'f', '8'] [-1]).map Char.toNat
    ++ [0, 1, 2, 3, 4, 5, 6, 7, 8, 9, 10, 11, 12, 13, 14, 15]

/-- A crafted blob declaring `shape` `(3,)` for a 16-byte float64 payload
(3 × 8 = 24 ≠ 16). -/
def mismatchBlob : List Nat :=
  magicBytes ++ [(headerChars ['<', 'f', '8'] [3]).length, 0]
    ++ (headerChars ['<', 'f', '8'] [3]).map Char.toNat
    ++ [0, 1, 2, 3, 4, 5, 6, 7, 8, 9, 10, 11, 12, 13, 14, 15]

/-! ## The artifact cache policy (`svg_data` / `geometry_data`) -/

/-- Result of one call to `svg_data` / `geometry_data`: the value returned,
the contents of the cache file afterwards, and whether the prebuilt-copy
fetch or the regeneration routine ran. -/
structure CacheResult (α : Type) where
  value : α
  file : Option (List Nat)
  fetched : Bool
  regenerated : Bool
deriving DecidableEq

/-- Embedding of the control flow of `svg_data` (lines 38-58), parametrized
by the bytes the network fetch would return, the bytes regeneration would
produce, and the read-back deserialization the source applies to the on-disk
bytes on every path (`pd.read_json ∘ gzip.decompress`).  `file` is the
contents of `.cache/cubicasa-svgs.json.gz` (`none` = absent). -/
def svg_data {α : Type} (readBack : List Nat → α) (regenBytes fetchBytes : List Nat)
    (regenerate : Bool) (file : Option (List Nat)) : CacheResult α :=
  if file.isNone || regenerate then
    if regenerate then ⟨readBack regenBytes, some regenBytes, false, true⟩
    else ⟨readBack fetchBytes, some fetchBytes, true, false⟩
  else ⟨readBack (file.getD []), file, false, false⟩

/-- Embedding of the control flow of `geometry_data` (lines 101-126): the
same lazy build-or-fetch policy over `.cache/cubicasa-geometry.npz.gz`, with
its own read-back (`gzip` + archive enumeration + `fastload` + `unflatten`). -/
def geometry_data {α : Type} (readBack : List Nat → α) (regenBytes fetchBytes : List Nat)
    (regenerate : Bool) (file : Option (List Nat)) : CacheResult α :=
  if file.isNone || regenerate then
    if regenerate then ⟨readBack regenBytes, some regenBytes, false, true⟩
    else ⟨readBack fetchBytes, some fetchBytes, true, false⟩
  else ⟨readBack (file.getD []), file, false, false⟩

/-! ## The parallel derivation filter -/

/-- Embedding of `safe_geometry` (lines 80-87): the geometry transform is an
external collaborator, modelled as a partial function; the bare `except`
turns any failure into `None` (after logging the id). -/
def safe_geometry {σ γ : Type} (geometry : σ → Option γ) (id : Key) (svg : σ) :
    Option γ :=
  geometry svg

/-- Modelled from the spec: `rebar.parallel`'s pool (§4.5) is not among the
sources; per the spec, `pool.wait` over the keyed collection of submitted
jobs resolves every job (success or swallowed failure) into a keyed mapping.
Composed with the `None` filter of `geometry_data` (lines 110-112). -/
def deriveGeometries {σ γ : Type} (geometry : σ → Option γ) (items : List (Key × σ)) :
    List (Key × γ) :=
  (items.map (fun p => (p.1, safe_geometry geometry p.1 p.2))).filterMap
    (fun p => match p.2 with | some v => some (p.1, v) | none => none)

/-! ## The deterministic sampler -/

/-- The id augmentation of the materialized cache
(`{k: {'id': k, **v} for k, v in _cache.items()}`): each item is paired with
its own cache key. -/
def augment {α : Type} (cache : List (Key × α)) : List (Key × (Key × α)) :=
  cache.map (fun p => (p.1, (p.1, p.2)))

/-- `int(.9 * len(_cache))`: the training cutoff.  Python computes it in
double precision; the result agrees with the exact floor of `9n/10` for
every cache size below `2^49`. -/
def cutoff (n : Nat) : Nat := 9 * n / 10

/-- Python `i % n`: `ZeroDivisionError` when `n = 0`. -/
def pymod (i n : Nat) : Option Nat := if n = 0 then none else some (i % n)

/-- The failure conditions `sample` can raise. -/
inductive SampleErr where
  | invalidArgument
  | zeroDivision
  | keyError
deriving DecidableEq

/-- Python `sorted` on the key list: a stable sort by the lexicographic
order on strings. -/
def sortKeys (ks : List Key) : List Key := ks.insertionSort (fun a b => ¬ b < a)

/-- The characters of the split name `training`. -/
def trainingCs : List Char := ['t', 'r', 'a', 'i', 'n', 'i', 'n', 'g']

/-- The characters of the split name `test`. -/
def testCs : List Char := ['t', 'e', 's', 't']

/-- The characters of the split name `all`. -/
def allCs : List Char := ['a', 'l', 'l']

/-- The split dispatch of `sample` (lines 136-145): slice the permuted order
at `cutoff`, or raise `ValueError` for an unknown split name. -/
def splitOrder (order : List Key) (n : Nat) (split : List Char) :
    Except SampleErr (List Key) :=
  if split = trainingCs then .ok (order.take (cutoff n))
  else if split = testCs then .ok (order.drop (cutoff n))
  else if split = allCs then .ok order
  else .error .invalidArgument

/-- The sampling comprehension of line 147:
`[_cache[order[i % len(order)]] for i in range(n_designs)]`. -/
def cyclicSelect {α : Type} (cache : List (Key × α)) (order : List Key) (count : Nat) :
    Except SampleErr (List α) :=
  (List.range count).mapM (fun i =>
    match pymod i order.length with
    | none => .error SampleErr.zeroDivision
    | some j =>
      match order[j]? with
      | none => .error SampleErr.keyError
      | some k =>
        match lookupD cache k with
        | none => .error SampleErr.keyError
        | some v => .ok v)

/-- Embedding of the body of `sample` (lines 129-147) over the materialized,
id-augmented cache.  `perm` is `np.random.RandomState(1).permutation`: an
external deterministic function of its input — the fixed seed makes it the
same function on every run and in every process. -/
def sampleCore {α : Type} (perm : List Key → List Key) (cache : List (Key × α))
    (count : Nat) (split : List Char) : Except SampleErr (List α) :=
  let order0 := perm (sortKeys (cache.map Prod.fst))
  match splitOrder order0 cache.length split with
  | .error e => .error e
  | .ok order => cyclicSelect cache order count

/-- Embedding of `sample` with the module-level `_cache` state: `none` means
not yet materialized; a first call materializes `geometry_data()` (its result
is the `geoData` parameter) and augments it with ids before the split is
validated. -/
def sampleS {α : Type} (perm : List Key → List Key) (geoData : List (Key × α))
    (st : Option (List (Key × (Key × α)))) (count : Nat) (split : List Char) :
    Except SampleErr (List (Key × α)) × Option (List (Key × (Key × α))) :=
  let c := match st with | some c => c | none => augment geoData
  (sampleCore perm c count split, some c)

/-! ## Lemmas about the dict primitives and `splitSlash` -/

theorem lookupD_eq_none {α : Type} (d : List (Key × α)) (k : Key)
    (h : ∀ p ∈ d, p.1 ≠ k) : lookupD d k = none := by
  induction d with
  | nil => rfl
  | cons p rest ih =>
    obtain ⟨k', v⟩ := p
    simp only [lookupD]
    rw [if_neg (h (k', v) (List.mem_cons_self _ _))]
    exact ih fun q hq => h q (List.mem_cons_of_mem _ hq)

theorem lookupD_append_left {α : Type} (d l : List (Key × α)) (k : Key)
    (h : lookupD d k = none) : lookupD (d ++ l) k = lookupD l k := by
  induction d with
  | nil => rfl
  | cons p rest ih =>
    obtain ⟨k', v⟩ := p
    simp only [lookupD] at h ⊢
    by_cases hk : k' = k
    · rw [if_pos hk] at h; exact absurd h (by simp)
    · rw [if_neg hk] at h ⊢; exact ih h

theorem setD_of_lookup_none {α : Type} (d : List (Key × α)) (k : Key) (v : α)
    (h : lookupD d k = none) : setD d k v = d ++ [(k, v)] := by
  induction d with
  | nil => rfl
  | cons p rest ih =>
    obtain ⟨k', v'⟩ := p
    simp only [lookupD] at h
    by_cases hk : k' = k
    · rw [if_pos hk] at h; exact absurd h (by simp)
    · rw [if_neg hk] at h
      simp only [setD, if_neg hk, List.cons_append, List.cons.injEq, true_and]
      exact ih h

theorem setD_of_lookup_some {α : Type} (d : List (Key × α)) (k : Key) (v : α)
    (h : lookupD d k = some v) : setD d k v = d := by
  induction d with
  | nil => simp [lookupD] at h
  | cons p rest ih =>
    obtain ⟨k', v'⟩ := p
    simp only [lookupD] at h
    by_cases hk : k' = k
    · rw [if_pos hk] at h
      simp only [Option.some.injEq] at h
      simp [setD, if_pos hk, hk, h]
    · rw [if_neg hk] at h
      simp only [setD, if_neg hk, List.cons.injEq, true_and]
      exact ih h

theorem lookupD_setD_self {α : Type} (d : List (Key × α)) (k : Key) (v : α) :
    lookupD (setD d k v) k = some v := by
  induction d with
  | nil => simp [setD, lookupD]
  | cons p rest ih =>
    obtain ⟨k', v'⟩ := p
    by_cases hk : k' = k
    · simp [setD, if_pos hk, lookupD]
    · simp only [setD, if_neg hk, lookupD, if_neg hk]
      exact ih

theorem setD_setD_self {α : Type} (d : List (Key × α)) (k : Key) (v w : α) :
    setD (setD d k v) k w = setD d k w := by
  induction d with
  | nil => simp [setD]
  | cons p rest ih =>
    obtain ⟨k', v'⟩ := p
    by_cases hk : k' = k
    · simp [setD, if_pos hk]
    · simp only [setD, if_neg hk, List.cons.injEq, true_and]
      exact ih

theorem setD_append_fresh {α : Type} (d : List (Key × α)) (k : Key) (e v : α)
    (h : lookupD d k = none) : setD (d ++ [(k, e)]) k v = d ++ [(k, v)] := by
  induction d with
  | nil => simp [setD]
  | cons p rest ih =>
    obtain ⟨k', v'⟩ := p
    simp only [lookupD] at h
    by_cases hk : k' = k
    · rw [if_pos hk] at h; exact absurd h (by simp)
    · rw [if_neg hk] at h
      simp only [List.cons_append, setD, if_neg hk, List.cons.injEq, true_and]
      exact ih h

theorem splitSlash_ne_nil (k : Key) : splitSlash k ≠ [] := by
  cases k with
  | nil => simp [splitSlash]
  | cons c rest =>
    simp only [splitSlash]
    by_cases hc : c = '/'
    · simp [hc]
    · rw [if_neg hc]
      cases splitSlash rest <;> simp

theorem splitSlash_no_slash (k : Key) (hk : '/' ∉ k) : splitSlash k = [k] := by
  induction k with
  | nil => rfl
  | cons c rest ih =>
    simp only [List.mem_cons, not_or] at hk
    have hc : ¬ c = '/' := fun h => hk.1 h.symm
    simp only [splitSlash, if_neg hc, ih hk.2]

theorem splitSlash_append (a b : Key) (ha : '/' ∉ a) :
    splitSlash (a ++ '/' :: b) = a :: splitSlash b := by
  induction a with
  | nil => simp [splitSlash]
  | cons c rest ih =>
    simp only [List.mem_cons, not_or] at ha
    have hc : ¬ c = '/' := fun h => ha.1 h.symm
    simp only [List.cons_append, splitSlash, if_neg hc, List.append_eq, ih ha.2]

/-! ## The `unflatten ∘ flatten` round trip -/

theorem insertPath_cons_dict {α : Type} (d : List (Key × Entry α)) (p : Key)
    (sp : List Key) (hsp : sp ≠ []) (v : α) (sub : List (Key × Entry α))
    (h : lookupD d p = some (.dict sub)) :
    insertPath d (p :: sp) v =
      (insertPath sub sp v).map (fun sub' => setD d p (.dict sub')) := by
  cases sp with
  | nil => exact absurd rfl hsp
  | cons a l => simp [insertPath, h]

theorem insertPath_cons_leaf {α : Type} (d : List (Key × Entry α)) (p : Key)
    (sp : List Key) (hsp : sp ≠ []) (v : α) (w : α)
    (h : lookupD d p = some (.leaf w)) :
    insertPath d (p :: sp) v = none := by
  cases sp with
  | nil => exact absurd rfl hsp
  | cons a l => simp [insertPath, h]

theorem insertPath_cons_none {α : Type} (d : List (Key × Entry α)) (p : Key)
    (sp : List Key) (hsp : sp ≠ []) (v : α)
    (h : lookupD d p = none) :
    insertPath d (p :: sp) v =
      (insertPath ([] : List (Key × Entry α)) sp v).map
        (fun sub' => d ++ [(p, .dict sub')]) := by
  cases sp with
  | nil => exact absurd rfl hsp
  | cons a l => simp [insertPath, h]

theorem flattenE_dict {α : Type} (k : Key) (d : List (Key × Entry α)) :
    flattenE k (.dict d) = prefixK k (flattenD d) := rfl

theorem insertAll_nil {α : Type} (d : List (Key × Entry α)) :
    insertAll d [] = some d := rfl

theorem insertAll_cons {α : Type} (d : List (Key × Entry α)) (q : Key × α)
    (rest : List (Key × α)) :
    insertAll d (q :: rest) =
      (insertPath d (splitSlash q.1) q.2).bind (fun t => insertAll t rest) := by
  simp only [insertAll, List.foldlM_cons]
  rfl

theorem insertAll_prefixK {α : Type} (k : Key) (hk : '/' ∉ k)
    (flat : List (Key × α)) :
    ∀ (d s : List (Key × Entry α)), lookupD d k = some (.dict s) →
    insertAll d (prefixK k flat) =
      (insertAll s flat).map (fun s' => setD d k (.dict s')) := by
  induction flat with
  | nil =>
    intro d s h
    rw [prefixK, List.map_nil, insertAll_nil, insertAll_nil, Option.map_some']
    rw [setD_of_lookup_some d k _ h]
  | cons q rest ih =>
    intro d s h
    obtain ⟨key0, v0⟩ := q
    rw [prefixK, List.map_cons]
    rw [insertAll_cons]
    simp only
    rw [splitSlash_append k key0 hk]
    rw [insertPath_cons_dict d k (splitSlash key0) (splitSlash_ne_nil key0) v0 s h]
    rw [insertAll_cons]
    cases hins : insertPath s (splitSlash key0) v0 with
    | none => simp
    | some s1 =>
      simp only [Option.map_some', Option.some_bind]
      have hmap : insertAll (setD d k (Entry.dict s1)) (prefixK k rest)
          = (insertAll s1 rest).map (fun s' => setD (setD d k (.dict s1)) k (.dict s')) :=
        ih (setD d k (.dict s1)) s1 (lookupD_setD_self d k _)
      rw [prefixK] at hmap
      rw [hmap]
      cases insertAll s1 rest with
      | none => simp
      | some s2 => simp [setD_setD_self]

theorem insertAll_prefixK_fresh {α : Type} (k : Key) (hk : '/' ∉ k)
    (q : Key × α) (rest : List (Key × α))
    (d : List (Key × Entry α)) (h : lookupD d k = none) :
    insertAll d (prefixK k (q :: rest)) =
      (insertAll [] (q :: rest)).map (fun s' => d ++ [(k, .dict s')]) := by
  obtain ⟨key0, v0⟩ := q
  rw [prefixK, List.map_cons, insertAll_cons]
  simp only
  rw [splitSlash_append k key0 hk]
  rw [insertPath_cons_none d k (splitSlash key0) (splitSlash_ne_nil key0) v0 h]
  rw [insertAll_cons]
  cases hins : insertPath ([] : List (Key × Entry α)) (splitSlash key0) v0 with
  | none => simp
  | some s1 =>
    simp only [Option.map_some', Option.some_bind]
    have hlook : lookupD (d ++ [(k, Entry.dict s1)]) k = some (.dict s1) := by
      rw [lookupD_append_left d _ k h]; simp [lookupD]
    have hmap := insertAll_prefixK k hk rest (d ++ [(k, .dict s1)]) s1 hlook
    rw [show (prefixK k rest : List (Key × α))
          = rest.map (fun p => (k ++ '/' :: p.1, p.2)) from rfl] at hmap
    rw [hmap]
    cases insertAll s1 rest with
    | none => simp
    | some s2 => simp [setD_append_fresh d k _ _ h]

theorem insertAll_append {α : Type} (d : List (Key × Entry α)) (A B : List (Key × α)) :
    insertAll d (A ++ B) = (insertAll d A).bind fun t => insertAll t B := by
  simp only [insertAll, List.foldlM_append]
  rfl

theorem flattenD_cons {α : Type} (k : Key) (e : Entry α) (rest : List (Key × Entry α)) :
    flattenD ((k, e) :: rest) = flattenE k e ++ flattenD rest := by
  rw [flattenD]

theorem flattenE_leaf {α : Type} (k : Key) (v : α) : flattenE k (.leaf v) = [(k, v)] := rfl

theorem wfD_cons {α : Type} (k : Key) (e : Entry α) (rest : List (Key × Entry α)) :
    wfD ((k, e) :: rest) =
      (!(k.contains '/') && rest.all (fun p => p.1 != k) && wfE e && wfD rest) := by
  rw [wfD]

theorem wfE_dict {α : Type} (d : List (Key × Entry α)) :
    wfE (.dict d) = (!d.isEmpty && wfD d) := by
  rw [wfE]

theorem sizeOf_list_pos {α : Type} [SizeOf α] (l : List α) : 0 < sizeOf l := by
  cases l <;> simp

theorem flattenD_ne_nil_aux {α : Type} :
    ∀ (n : Nat) (d : List (Key × Entry α)), sizeOf d ≤ n → wfD d = true → d ≠ [] →
      flattenD d ≠ [] := by
  intro n
  induction n with
  | zero => intro d hsz _ _; have := sizeOf_list_pos d; omega
  | succ n ih =>
    intro d hsz hwf hne
    match d with
    | [] => exact absurd rfl hne
    | (k, e) :: rest =>
      rw [flattenD_cons]
      cases e with
      | leaf v => simp [flattenE_leaf]
      | dict sub =>
        rw [wfD_cons] at hwf
        simp only [Bool.and_eq_true] at hwf
        obtain ⟨⟨⟨_, _⟩, he⟩, _⟩ := hwf
        rw [wfE_dict] at he
        simp only [Bool.and_eq_true] at he
        have hsub_ne : sub ≠ [] := by
          cases sub
          · simp [List.isEmpty] at he
          · simp
        have hsz' : sizeOf sub ≤ n := by
          have : sizeOf ((k, Entry.dict sub) :: rest) ≤ n + 1 := hsz
          simp only [List.cons.sizeOf_spec, Prod.mk.sizeOf_spec, Entry.dict.sizeOf_spec] at this
          omega
        have hfl := ih sub hsz' he.2 hsub_ne
        rw [flattenE_dict, prefixK]
        intro hcontra
        rw [List.append_eq_nil] at hcontra
        exact hfl (List.map_eq_nil_iff.mp hcontra.1)

theorem insertAll_flattenD {α : Type} :
    ∀ (n : Nat) (d : List (Key × Entry α)), sizeOf d ≤ n → wfD d = true →
      ∀ acc : List (Key × Entry α), (∀ p ∈ d, lookupD acc p.1 = none) →
      insertAll acc (flattenD d) = some (acc ++ d) := by
  intro n
  induction n with
  | zero => intro d hsz _ _ _; have := sizeOf_list_pos d; omega
  | succ n ih =>
    intro d hsz hwf acc hacc
    match d with
    | [] => simp [flattenD, insertAll_nil]
    | (k, e) :: rest =>
      rw [wfD_cons] at hwf
      simp only [Bool.and_eq_true] at hwf
      obtain ⟨⟨⟨hk, hall⟩, he⟩, hrest⟩ := hwf
      have hkmem : '/' ∉ k := by simpa using hk
      have hacck : lookupD acc k = none := hacc (k, e) (List.mem_cons_self _ _)
      have hrest_keys : ∀ p ∈ rest, p.1 ≠ k := by
        intro p hp
        have := (List.all_eq_true.mp hall) p hp
        simpa using this
      have hsz_rest : sizeOf rest ≤ n := by
        have : sizeOf ((k, e) :: rest) ≤ n + 1 := hsz
        simp only [List.cons.sizeOf_spec, Prod.mk.sizeOf_spec] at this
        have hpos : 0 < sizeOf e := by cases e <;> simp
        omega
      rw [flattenD_cons, insertAll_append]
      cases e with
      | leaf v =>
        rw [flattenE_leaf]
        rw [insertAll_cons]
        simp only
        rw [splitSlash_no_slash k hkmem]
        have hstep : insertPath acc [k] v = some (setD acc k (.leaf v)) := rfl
        rw [hstep, setD_of_lookup_none acc k _ hacck]
        simp only [Option.some_bind, insertAll_nil, Option.some_bind]
        have hdisj : ∀ p ∈ rest, lookupD (acc ++ [(k, Entry.leaf v)]) p.1 = none := by
          intro p hp
          rw [lookupD_append_left _ _ _ (hacc p (List.mem_cons_of_mem _ hp))]
          have hne : ¬ k = p.1 := fun hcontra => hrest_keys p hp hcontra.symm
          simp [lookupD, hne]
        have h2 := ih rest hsz_rest hrest (acc ++ [(k, .leaf v)]) hdisj
        rw [List.append_assoc] at h2
        simpa using h2
      | dict sub =>
        rw [wfE_dict] at he
        simp only [Bool.and_eq_true] at he
        have hsub_ne : sub ≠ [] := by
          cases sub
          · simp [List.isEmpty] at he
          · simp
        have hsz_sub : sizeOf sub ≤ n := by
          have : sizeOf ((k, Entry.dict sub) :: rest) ≤ n + 1 := hsz
          simp only [List.cons.sizeOf_spec, Prod.mk.sizeOf_spec, Entry.dict.sizeOf_spec] at this
          omega
        have hfl_ne : flattenD sub ≠ [] := flattenD_ne_nil_aux (n := n) sub hsz_sub he.2 hsub_ne
        rw [flattenE_dict]
        cases hfl : flattenD sub with
        | nil => exact absurd hfl hfl_ne
        | cons q qrest =>
          rw [insertAll_prefixK_fresh k hkmem q qrest acc hacck]
          have hsub_eq : insertAll ([] : List (Key × Entry α)) (q :: qrest) = some sub := by
            rw [← hfl]
            have := ih sub hsz_sub he.2 [] (by intro p _; rfl)
            simpa using this
          rw [hsub_eq]
          simp only [Option.map_some', Option.some_bind]
          have hdisj : ∀ p ∈ rest, lookupD (acc ++ [(k, Entry.dict sub)]) p.1 = none := by
            intro p hp
            rw [lookupD_append_left _ _ _ (hacc p (List.mem_cons_of_mem _ hp))]
            have hne : ¬ k = p.1 := fun hcontra => hrest_keys p hp hcontra.symm
            simp [lookupD, hne]
          have h2 := ih rest hsz_rest hrest (acc ++ [(k, .dict sub)]) hdisj
          rw [List.append_assoc] at h2
          simpa using h2

theorem unflatten_flatten {α : Type} (t : List (Key × Entry α)) (h : wfD t = true) :
    unflattenD (flattenD t) = some t := by
  have := insertAll_flattenD (α := α) (sizeOf t) t le_rfl h [] (fun p _ => rfl)
  simpa [unflattenD] using this

theorem flattenD_nil {α : Type} : flattenD ([] : List (Key × Entry α)) = [] := by
  rw [flattenD]

/-! ## Derivation lemmas -/

theorem deriveGeometries_eq_filterMap {σ γ : Type} (geometry : σ → Option γ)
    (items : List (Key × σ)) :
    deriveGeometries geometry items
      = items.filterMap (fun p => (safe_geometry geometry p.1 p.2).map (fun v => (p.1, v))) := by
  rw [deriveGeometries, List.filterMap_map]
  apply List.filterMap_congr
  intro p _
  cases geometry p.2 <;> rfl

theorem deriveGeometries_length {σ γ : Type} (geometry : σ → Option γ)
    (items : List (Key × σ)) :
    (deriveGeometries geometry items).length
      = items.length
        - (items.filter (fun p => (safe_geometry geometry p.1 p.2).isNone)).length := by
  rw [deriveGeometries_eq_filterMap]
  simp only [safe_geometry]
  induction items with
  | nil => rfl
  | cons q rest ih =>
    have hle : (List.filter (fun p => (geometry p.2).isNone) rest).length ≤ rest.length :=
      List.length_filter_le _ _
    cases hq : geometry q.2 with
    | none =>
      simp only [List.filterMap_cons, List.filter_cons, hq, Option.map_none',
        Option.isNone_none, List.length_cons, if_pos]
      rw [ih]
      omega
    | some v =>
      simp only [List.filterMap_cons, List.filter_cons, hq, Option.map_some',
        Option.isNone_some, List.length_cons]
      rw [if_neg (by simp), ih]
      omega

/-! ## Claim theorems (C1, C4, C5, C8) -/

/-- C1: the claim states `unflatten (flatten t) = t` for every nested mapping
with array leaves and slash-free keys, *including* trees containing empty
nested mappings.  Counterexample: for the tree binding the key `a` to an
empty sub-mapping, `flatten` drops the empty sub-dict entirely, so the round
trip returns the empty mapping, not `t`. -/
theorem claim_C1_counterexample :
    unflattenD (flattenD ([(['a'], Entry.dict [])] : List (Key × Entry Nat)))
      ≠ some [(['a'], Entry.dict [])] := by
  have h : unflattenD (flattenD ([(['a'], Entry.dict [])] : List (Key × Entry Nat)))
      = some [] := rfl
  rw [h]
  intro hc
  simp only [Option.some.injEq] at hc
  exact List.noConfusion hc

/-- C1 (amended): `unflatten (flatten t) = t` for every nested mapping whose
leaves are non-mapping values, whose keys contain no `/` and are distinct at
each level, and all of whose nested mappings are nonempty. -/
theorem claim_C1 {α : Type} (t : List (Key × Entry α)) (h : wfD t = true) :
    unflattenD (flattenD t) = some t :=
  unflatten_flatten t h

/-- Witness for C1: the round trip at a concrete well-formed tree. -/
theorem claim_C1_witness :
    wfD ([(['a'], .leaf 1), (['b'], .dict [(['c'], .leaf 2), (['d'], .leaf 3)])]
        : List (Key × Entry Nat)) = true
    ∧ unflattenD (flattenD ([(['a'], .leaf 1),
          (['b'], .dict [(['c'], .leaf 2), (['d'], .leaf 3)])] : List (Key × Entry Nat)))
      = some [(['a'], .leaf 1), (['b'], .dict [(['c'], .leaf 2), (['d'], .leaf 3)])] :=
  ⟨rfl, claim_C1 _ rfl⟩

/-- C8: the claim states that a flat record using a key both as a leaf path
and as an intermediate segment always fails with `ConflictingPath`.
Counterexample: when the longer path comes first in iteration order,
`unflatten` succeeds and silently overwrites the intermediate mapping with
the leaf. -/
theorem claim_C8_counterexample :
    unflattenD ([(['a', '/', 'b'], 2), (['a'], 1)] : List (Key × Nat))
      = some [(['a'], Entry.leaf 1)] := rfl

/-- C8 (amended): when the conflicting key is assigned as a leaf *before*
the longer path is processed, `unflatten` fails (the `ConflictingPath`
condition); in the opposite iteration order it silently replaces the
subtree. -/
theorem claim_C8 {α : Type} (k kk : Key) (v w : α) (more : List (Key × α))
    (hk : '/' ∉ k) :
    unflattenD ((k, v) :: (k ++ '/' :: kk, w) :: more) = none := by
  rw [unflattenD, insertAll_cons]
  simp only
  rw [splitSlash_no_slash k hk]
  have h1 : insertPath ([] : List (Key × Entry α)) [k] v
      = some (setD [] k (.leaf v)) := rfl
  rw [h1, Option.some_bind]
  rw [insertAll_cons]
  simp only
  rw [splitSlash_append k kk hk]
  rw [insertPath_cons_leaf _ k (splitSlash kk) (splitSlash_ne_nil kk) w v
    (by simp [setD, lookupD])]
  rfl

/-- Witness for C8 (amended): leaf first, deeper path second, at concrete
input. -/
theorem claim_C8_witness :
    ('/' ∉ (['a'] : Key))
    ∧ unflattenD ([(['a'], 1), (['a', '/', 'b'], 2)] : List (Key × Nat)) = none :=
  ⟨by decide, claim_C8 ['a'] ['b'] 1 2 [] (by decide)⟩

/-- C4: with `regenerate = false` and the cache file present, neither the
fetch nor the regeneration routine runs, the file is unchanged, and the
returned value is the read-back of exactly the on-disk bytes — for both
`svg_data` and `geometry_data`. -/
theorem claim_C4 {α β : Type} (readS : List Nat → α) (readG : List Nat → β)
    (regenS fetchS regenG fetchG : List Nat) (b c : List Nat) :
    svg_data readS regenS fetchS false (some b)
        = ⟨readS b, some b, false, false⟩
    ∧ geometry_data readG regenG fetchG false (some c)
        = ⟨readG c, some c, false, false⟩ :=
  ⟨rfl, rfl⟩

/-- C5: deriving geometries over `N` items of which `k` fail yields exactly
`N - k` entries, one per successful input key, each equal to what the
transform returns on that item in isolation; failed items are omitted
without aborting. -/
theorem claim_C5 {σ γ : Type} (geometry : σ → Option γ) (items : List (Key × σ)) :
    (deriveGeometries geometry items).length
      = items.length
        - (items.filter (fun p => (safe_geometry geometry p.1 p.2).isNone)).length
    ∧ ∀ q ∈ deriveGeometries geometry items,
        ∃ p ∈ items, p.1 = q.1 ∧ safe_geometry geometry p.1 p.2 = some q.2 := by
  refine ⟨deriveGeometries_length geometry items, ?_⟩
  intro q hq
  rw [deriveGeometries_eq_filterMap] at hq
  obtain ⟨p, hp, hfp⟩ := List.mem_filterMap.mp hq
  refine ⟨p, hp, ?_⟩
  cases hg : safe_geometry geometry p.1 p.2 with
  | none => rw [hg] at hfp; simp at hfp
  | some v =>
    rw [hg, Option.map_some'] at hfp
    have hpq : (p.1, v) = q := Option.some.inj hfp
    constructor
    · rw [← hpq]
    · rw [← hpq]

/-! ## Sampler lemmas -/

theorem augment_map_fst {α : Type} (g : List (Key × α)) :
    (augment g).map Prod.fst = g.map Prod.fst := by
  simp [augment, List.map_map]

theorem augment_length {α : Type} (g : List (Key × α)) :
    (augment g).length = g.length := by
  simp [augment]

theorem lookupD_augment {α : Type} (g : List (Key × α)) (k : Key) :
    lookupD (augment g) k = (lookupD g k).map (fun v => (k, v)) := by
  induction g with
  | nil => rfl
  | cons p rest ih =>
    obtain ⟨k2, v2⟩ := p
    simp only [augment, List.map_cons, lookupD]
    by_cases hk : k2 = k
    · subst hk
      simp
    · simp only [if_neg hk]
      simpa [augment] using ih

theorem lookupD_isSome_of_mem {α : Type} (g : List (Key × α)) (k : Key)
    (h : k ∈ g.map Prod.fst) : (lookupD g k).isSome := by
  induction g with
  | nil => simp at h
  | cons p rest ih =>
    obtain ⟨k2, v2⟩ := p
    simp only [List.map_cons, List.mem_cons] at h
    simp only [lookupD]
    by_cases hk : k2 = k
    · simp [hk]
    · rw [if_neg hk]
      exact ih (h.resolve_left (fun he => hk he.symm))

theorem map_getD_range {α : Type} (l : List α) (d : α) :
    (List.range l.length).map (fun i => l.getD i d) = l := by
  induction l with
  | nil => rfl
  | cons a rest ih =>
    rw [List.length_cons, List.range_succ_eq_map, List.map_cons, List.map_map]
    simp only [Function.comp_def, Nat.succ_eq_add_one, List.getD_cons_zero,
      List.getD_cons_succ]
    rw [ih]

theorem cyclicSelect_ok {α : Type} (cache : List (Key × α)) (order : List Key)
    (hne : order ≠ [])
    (hlk : ∀ k ∈ order, (lookupD cache k).isSome) (count : Nat) :
    ∃ items, cyclicSelect cache order count = .ok items
      ∧ items.map some
        = (List.range count).map
            (fun i => lookupD cache (order.getD (i % order.length) [])) := by
  have hpos : 0 < order.length := List.length_pos.mpr hne
  suffices haux : ∀ idxs : List Nat,
      ∃ items, idxs.mapM (fun i =>
        match pymod i order.length with
        | none => Except.error SampleErr.zeroDivision
        | some j =>
          match order[j]? with
          | none => Except.error SampleErr.keyError
          | some k =>
            match lookupD cache k with
            | none => Except.error SampleErr.keyError
            | some v => Except.ok v) = .ok items
      ∧ items.map some
        = idxs.map (fun i => lookupD cache (order.getD (i % order.length) [])) by
    exact haux (List.range count)
  intro idxs
  induction idxs with
  | nil => exact ⟨[], rfl, rfl⟩
  | cons i rest ih =>
    obtain ⟨items, hok, hmap⟩ := ih
    have hj : i % order.length < order.length := Nat.mod_lt _ hpos
    have hget : order[i % order.length]? = some (order.getD (i % order.length) []) := by
      rw [List.getElem?_eq_getElem hj, List.getD_eq_getElem order [] hj]
    have hmem : order.getD (i % order.length) [] ∈ order := by
      rw [List.getD_eq_getElem order [] hj]
      exact List.getElem_mem hj
    obtain ⟨v, hv⟩ := Option.isSome_iff_exists.mp (hlk _ hmem)
    refine ⟨v :: items, ?_, ?_⟩
    · rw [List.mapM_cons]
      have hstep : (match pymod i order.length with
          | none => Except.error SampleErr.zeroDivision
          | some j =>
            match order[j]? with
            | none => Except.error SampleErr.keyError
            | some k =>
              match lookupD cache k with
              | none => (Except.error SampleErr.keyError : Except SampleErr α)
              | some v => Except.ok v)
          = Except.ok v := by
        have h0 : ¬ order.length = 0 := Nat.pos_iff_ne_zero.mp hpos
        simp only [pymod, if_neg h0, hget, hv]
      rw [hstep, hok]
      rfl
    · rw [List.map_cons, List.map_cons, hmap, hv]

theorem lookupD_augment_isSome {α : Type} (g : List (Key × α)) (k : Key)
    (h : k ∈ g.map Prod.fst) : (lookupD (augment g) k).isSome := by
  rw [lookupD_augment]
  obtain ⟨v, hv⟩ := Option.isSome_iff_exists.mp (lookupD_isSome_of_mem g k h)
  rw [hv]
  rfl

theorem cyclicSelect_augment_ids {α : Type} (g : List (Key × α)) (order : List Key)
    (count : Nat) (hne : order ≠ [])
    (hsub : ∀ k ∈ order, k ∈ g.map Prod.fst) :
    ∃ items, cyclicSelect (augment g) order count = .ok items
      ∧ items.map Prod.fst
          = (List.range count).map (fun i => order.getD (i % order.length) [])
      ∧ items.length = count := by
  have hlk : ∀ k ∈ order, (lookupD (augment g) k).isSome := fun k hk =>
    lookupD_augment_isSome g k (hsub k hk)
  obtain ⟨items, hok, hmap⟩ := cyclicSelect_ok (augment g) order hne hlk count
  refine ⟨items, hok, ?_, ?_⟩
  · apply List.map_injective_iff.mpr (Option.some_injective (Key))
    rw [List.map_map, List.map_map]
    calc items.map (some ∘ Prod.fst)
        = items.map ((Option.map Prod.fst) ∘ some) := by
          apply List.map_congr_left
          intro x _
          rfl
      _ = (List.range count).map ((Option.map Prod.fst) ∘
            (fun i => lookupD (augment g) (order.getD (i % order.length) []))) := by
          rw [← List.map_map, hmap, List.map_map]
      _ = (List.range count).map (some ∘ fun i => order.getD (i % order.length) []) := by
          apply List.map_congr_left
          intro i _
          simp only [Function.comp_def]
          have hj : i % order.length < order.length :=
            Nat.mod_lt _ (List.length_pos.mpr hne)
          have hmem : order.getD (i % order.length) [] ∈ order := by
            rw [List.getD_eq_getElem order [] hj]
            exact List.getElem_mem hj
          obtain ⟨v, hv⟩ := Option.isSome_iff_exists.mp
            (lookupD_isSome_of_mem g _ (hsub _ hmem))
          rw [lookupD_augment, hv]
          rfl
  · have := congrArg List.length hmap
    simpa using this

theorem splitOrder_bad (order : List Key) (n : Nat) (split : List Char)
    (h1 : split ≠ trainingCs) (h2 : split ≠ testCs) (h3 : split ≠ allCs) :
    splitOrder order n split = .error .invalidArgument := by
  rw [splitOrder, if_neg h1, if_neg h2, if_neg h3]

theorem cyclicSelect_nil {α : Type} (cache : List (Key × α)) (count : Nat)
    (hc : 1 ≤ count) :
    cyclicSelect cache ([] : List Key) count = .error SampleErr.zeroDivision := by
  cases count with
  | zero => omega
  | succ n =>
    rw [cyclicSelect, List.range_succ_eq_map, List.mapM_cons]
    have hstep : (match pymod 0 ([] : List Key).length with
        | none => Except.error SampleErr.zeroDivision
        | some j =>
          match ([] : List Key)[j]? with
          | none => Except.error SampleErr.keyError
          | some k =>
            match lookupD cache k with
            | none => (Except.error SampleErr.keyError : Except SampleErr α)
            | some v => Except.ok v)
        = Except.error SampleErr.zeroDivision := rfl
    rw [hstep]
    rfl

theorem splitOrder_training (order : List Key) (n : Nat) :
    splitOrder order n trainingCs = .ok (order.take (cutoff n)) := by
  rw [splitOrder, if_pos rfl]

theorem splitOrder_test (order : List Key) (n : Nat) :
    splitOrder order n testCs = .ok (order.drop (cutoff n)) := by
  rw [splitOrder, if_neg (by decide), if_pos rfl]

theorem splitOrder_all (order : List Key) (n : Nat) :
    splitOrder order n allCs = .ok order := by
  rw [splitOrder, if_neg (by decide), if_neg (by decide), if_pos rfl]

theorem sampleCore_eq {α : Type} (perm : List Key → List Key)
    (cache : List (Key × α)) (count : Nat) (split : List Char) (o : List Key)
    (hso : splitOrder (perm (sortKeys (cache.map Prod.fst))) cache.length split
      = .ok o) :
    sampleCore perm cache count split = cyclicSelect cache o count := by
  rw [sampleCore]
  simp only [hso]

theorem sampleCore_err {α : Type} (perm : List Key → List Key)
    (cache : List (Key × α)) (count : Nat) (split : List Char) (e : SampleErr)
    (hso : splitOrder (perm (sortKeys (cache.map Prod.fst))) cache.length split
      = .error e) :
    sampleCore perm cache count split = .error e := by
  rw [sampleCore]
  simp only [hso]

/-! ## Claim theorems (C3, C6, C9, C10) -/

/-- C3: over a materialized cache the sampler computes
`cutoff = floor(0.9 * N)` and one fixed permutation of the sorted id list;
`training` is its first `cutoff` ids, `test` the rest, `all` the whole
permutation; training and test are disjoint, and sampling `N` items from
`all` returns every id exactly once.  (Determinism across processes is the
fact that `sampleCore` is a function of the id set and the fixed `perm`
alone.) -/
theorem claim_C3 {α : Type} (perm : List Key → List Key) (g : List (Key × α))
    (hperm : ∀ l, (perm l).Perm l) (hnd : (g.map Prod.fst).Nodup) :
    ∀ order, order = perm (sortKeys ((augment g).map Prod.fst)) →
      order.Perm (g.map Prod.fst)
      ∧ order.Nodup
      ∧ splitOrder order (augment g).length trainingCs
          = .ok (order.take (cutoff g.length))
      ∧ splitOrder order (augment g).length testCs
          = .ok (order.drop (cutoff g.length))
      ∧ splitOrder order (augment g).length allCs = .ok order
      ∧ (∀ k ∈ order.take (cutoff g.length), k ∉ order.drop (cutoff g.length))
      ∧ ∃ items, sampleCore perm (augment g) g.length allCs = .ok items
          ∧ items.map Prod.fst = order := by
  intro order horder
  have hkeys : order.Perm (g.map Prod.fst) := by
    rw [horder, augment_map_fst]
    exact (hperm _).trans (List.perm_insertionSort _ _)
  have hond : order.Nodup := hkeys.nodup_iff.mpr hnd
  have hlen : order.length = g.length := by
    rw [hkeys.length_eq, List.length_map]
  refine ⟨hkeys, hond, ?_, ?_, ?_, ?_, ?_⟩
  · rw [augment_length, splitOrder_training]
  · rw [augment_length, splitOrder_test]
  · rw [splitOrder_all]
  · intro k hk hk2
    exact List.disjoint_take_drop hond le_rfl hk hk2
  · have hso : splitOrder (perm (sortKeys ((augment g).map Prod.fst)))
        (augment g).length allCs = .ok order := by
      rw [splitOrder_all, horder]
    have hcore := sampleCore_eq perm (augment g) g.length allCs order hso
    by_cases hgo : order = []
    · have hg0 : g.length = 0 := by rw [← hlen, hgo]; rfl
      refine ⟨[], ?_, by rw [hgo]; rfl⟩
      rw [hcore, hgo, hg0]
      rfl
    · have hsub : ∀ k ∈ order, k ∈ g.map Prod.fst := fun k hk => hkeys.mem_iff.mp hk
      obtain ⟨items, hok, hids, hcnt⟩ :=
        cyclicSelect_augment_ids g order g.length hgo hsub
      refine ⟨items, by rw [hcore]; exact hok, ?_⟩
      rw [hids, ← hlen]
      have hcong : (List.range order.length).map
            (fun i => order.getD (i % order.length) [])
          = (List.range order.length).map (fun i => order.getD i []) := by
        apply List.map_congr_left
        intro i hi
        rw [Nat.mod_eq_of_lt (List.mem_range.mp hi)]
      rw [hcong, map_getD_range]

/-- Witness for C3 at a two-item cache with the reversal permutation. -/
theorem claim_C3_witness :
    (∀ l : List Key, (l.reverse).Perm l)
    ∧ ((([(['a'], 0), (['b'], 1)] : List (Key × Nat)).map Prod.fst).Nodup)
    ∧ ([['b'], ['a']] : List Key)
        = (fun l : List Key => l.reverse)
            (sortKeys ((augment ([(['a'], 0), (['b'], 1)] : List (Key × Nat))).map Prod.fst))
    ∧ (splitOrder [['b'], ['a']]
          (augment ([(['a'], 0), (['b'], 1)] : List (Key × Nat))).length trainingCs
        = .ok [['b']])
    ∧ ∃ items, sampleCore (fun l : List Key => l.reverse)
          (augment ([(['a'], 0), (['b'], 1)] : List (Key × Nat))) 2 allCs = .ok items
        ∧ items.map Prod.fst = [['b'], ['a']] := by
  have h := claim_C3 (fun l : List Key => l.reverse)
    ([(['a'], 0), (['b'], 1)] : List (Key × Nat))
    (fun l => l.reverse_perm) (by decide) [['b'], ['a']] (by decide)
  refine ⟨fun l => l.reverse_perm, by decide, by decide, ?_, h.2.2.2.2.2.2⟩
  have h3 := h.2.2.1
  simpa using h3

/-- C6: for a valid nonempty split, sampling one more item than the split
holds cycles through the split in permutation order: the call succeeds,
returns `len+1` items, and its first and last items coincide. -/
theorem claim_C6 {α : Type} (perm : List Key → List Key) (g : List (Key × α))
    (split : List Char) (order : List Key)
    (hso : splitOrder (perm (sortKeys ((augment g).map Prod.fst)))
        (augment g).length split = .ok order)
    (hne : order ≠ [])
    (hsub : ∀ k ∈ order, k ∈ g.map Prod.fst) :
    ∃ items, sampleCore perm (augment g) (order.length + 1) split = .ok items
      ∧ items.length = order.length + 1
      ∧ items.head? = items.getLast? := by
  have hcore := sampleCore_eq perm (augment g) (order.length + 1) split order hso
  have hlk : ∀ k ∈ order, (lookupD (augment g) k).isSome := fun k hk =>
    lookupD_augment_isSome g k (hsub k hk)
  obtain ⟨items, hok, hmap⟩ :=
    cyclicSelect_ok (augment g) order hne hlk (order.length + 1)
  have hlen : items.length = order.length + 1 := by
    have := congrArg List.length hmap
    simpa using this
  refine ⟨items, by rw [hcore]; exact hok, hlen, ?_⟩
  have hhead := congrArg List.head? hmap
  have hlast := congrArg List.getLast? hmap
  rw [List.head?_map, List.head?_map] at hhead
  rw [List.getLast?_map, List.getLast?_map] at hlast
  have hrh : (List.range (order.length + 1)).head? = some 0 := by
    rw [List.range_succ_eq_map]
    rfl
  have hrl : (List.range (order.length + 1)).getLast? = some order.length := by
    have : List.range (order.length + 1) = List.range order.length ++ [order.length] :=
      List.range_succ order.length
    rw [this, List.getLast?_concat]
  rw [hrh] at hhead
  rw [hrl] at hlast
  simp only [Option.map_some'] at hhead hlast
  rw [Nat.zero_mod] at hhead
  rw [Nat.mod_self] at hlast
  have hsame : items.head?.map some = items.getLast?.map some := by
    rw [hhead, hlast]
  exact Option.map_injective (Option.some_injective _) hsame

/-- Witness for C6: two items, split `all`, count 3: the first and last
sampled items coincide. -/
theorem claim_C6_witness :
    (splitOrder ((fun l : List Key => l)
          (sortKeys ((augment ([(['a'], 0), (['b'], 1)] : List (Key × Nat))).map Prod.fst)))
        (augment ([(['a'], 0), (['b'], 1)] : List (Key × Nat))).length allCs
      = .ok [['a'], ['b']])
    ∧ ∃ items, sampleCore (fun l : List Key => l)
          (augment ([(['a'], 0), (['b'], 1)] : List (Key × Nat)))
          (([['a'], ['b']] : List Key).length + 1) allCs = .ok items
        ∧ items.length = ([['a'], ['b']] : List Key).length + 1
        ∧ items.head? = items.getLast? :=
  ⟨rfl, claim_C6 (fun l : List Key => l) ([(['a'], 0), (['b'], 1)] : List (Key × Nat))
    allCs [['a'], ['b']] rfl (by decide) (by decide)⟩

/-- C9: the claim states a bad split name fails with `InvalidArgument` and
leaves the SampleCache unmutated, including on the very first call.
Counterexample: on a first call (`_cache = None`) the cache is materialized
and id-augmented *before* the split is validated, so the failing call does
mutate the module-level cache. -/
theorem claim_C9_counterexample :
    (sampleS (fun l => l) ([(['a'], 0)] : List (Key × Nat)) none 1
        ['b', 'o', 'g', 'u', 's']).1 = .error .invalidArgument
    ∧ (sampleS (fun l => l) ([(['a'], 0)] : List (Key × Nat)) none 1
        ['b', 'o', 'g', 'u', 's']).2 = some (augment [(['a'], 0)]) :=
  ⟨rfl, rfl⟩

/-- C9 (amended): a bad split name fails with `InvalidArgument`; an
already-materialized cache is passed through unchanged, but a first call
materializes the cache before the split check, so the failing call does
initialize it. -/
theorem claim_C9 {α : Type} (perm : List Key → List Key) (g : List (Key × α))
    (c : List (Key × (Key × α))) (count : Nat) (split : List Char)
    (h1 : split ≠ trainingCs) (h2 : split ≠ testCs) (h3 : split ≠ allCs) :
    sampleS perm g (some c) count split = (.error .invalidArgument, some c)
    ∧ sampleS perm g none count split
        = (.error .invalidArgument, some (augment g)) := by
  constructor
  · show (sampleCore perm c count split, some c) = _
    rw [sampleCore_err perm c count split .invalidArgument
      (splitOrder_bad _ _ _ h1 h2 h3)]
  · show (sampleCore perm (augment g) count split, some (augment g)) = _
    rw [sampleCore_err perm (augment g) count split .invalidArgument
      (splitOrder_bad _ _ _ h1 h2 h3)]

/-- Witness for C9 (amended) at a concrete bad split name. -/
theorem claim_C9_witness :
    ((['x'] : List Char) ≠ trainingCs)
    ∧ ((['x'] : List Char) ≠ testCs)
    ∧ ((['x'] : List Char) ≠ allCs)
    ∧ sampleS (fun l : List Key => l) ([(['a'], 0)] : List (Key × Nat))
        (some (augment [(['a'], 0)])) 2 ['x']
        = (.error .invalidArgument, some (augment [(['a'], 0)]))
    ∧ sampleS (fun l : List Key => l) ([(['a'], 0)] : List (Key × Nat)) none 2 ['x']
        = (.error .invalidArgument, some (augment [(['a'], 0)])) := by
  have h := claim_C9 (fun l : List Key => l) ([(['a'], 0)] : List (Key × Nat))
    (augment [(['a'], 0)]) 2 ['x'] (by decide) (by decide) (by decide)
  exact ⟨by decide, by decide, by decide, h.1, h.2⟩

/-- C10: with exactly one cached item, `cutoff = int(0.9 * 1) = 0`, the
training split is empty, and sampling any `count ≥ 1` hits `i % 0`:
a `ZeroDivisionError`, not a result and not `InvalidArgument`; in general an
empty split makes the cyclic index undefined for any positive count. -/
theorem claim_C10 {α : Type} (perm : List Key → List Key) (k0 : Key) (v0 : α)
    (count : Nat) (hc : 1 ≤ count) :
    cutoff (augment [(k0, v0)]).length = 0
    ∧ splitOrder (perm (sortKeys ((augment [(k0, v0)]).map Prod.fst)))
        (augment [(k0, v0)]).length trainingCs
      = .ok ((perm (sortKeys [k0])).take 0)
    ∧ sampleCore perm (augment [(k0, v0)]) count trainingCs
      = .error SampleErr.zeroDivision
    ∧ ∀ cache : List (Key × α),
        cyclicSelect cache [] count = .error SampleErr.zeroDivision := by
  have hcut : cutoff (augment [(k0, v0)]).length = 0 := by
    rw [augment_length, List.length_singleton]
    decide
  refine ⟨hcut, ?_, ?_, fun cache => cyclicSelect_nil cache count hc⟩
  · rw [splitOrder_training, hcut]
    rfl
  · have hso : splitOrder (perm (sortKeys ((augment [(k0, v0)]).map Prod.fst)))
        (augment [(k0, v0)]).length trainingCs = .ok ([] : List Key) := by
      rw [splitOrder_training, hcut]
      rfl
    rw [sampleCore_eq perm _ count trainingCs [] hso]
    exact cyclicSelect_nil _ count hc

/-- Witness for C10 at the one-item cache and count 1. -/
theorem claim_C10_witness :
    1 ≤ 1
    ∧ sampleCore (fun l : List Key => l) (augment ([(['a'], 0)] : List (Key × Nat)))
        1 trainingCs = .error SampleErr.zeroDivision :=
  ⟨by decide, (claim_C10 (fun l : List Key => l) ['a'] 0 1 (by decide)).2.2.1⟩

/-! ## Codec lemmas: digits and numerals -/

theorem toNat_ofNat_of_lt (n : Nat) (h : n < 128) : (Char.ofNat n).toNat = n := by
  have hv : n.isValidChar := Or.inl (by omega)
  simp only [Char.ofNat, hv, dif_pos, Char.ofNatAux, Char.toNat]
  rfl

theorem digitChar_toNat (d : Nat) (h : d < 10) : (digitChar d).toNat = 48 + d :=
  toNat_ofNat_of_lt _ (by omega)

theorem isDigitC_digitChar (d : Nat) (h : d < 10) : isDigitC (digitChar d) = true := by
  simp only [isDigitC, digitChar_toNat d h]
  simp only [Bool.and_eq_true, decide_eq_true_eq]
  omega

theorem natDigitsAux_zero_input : ∀ f : Nat, natDigitsAux f 0 = []
  | 0 => rfl
  | _ + 1 => by simp [natDigitsAux]

theorem natDigitsAux_fuel : ∀ (f1 f2 n : Nat), n ≤ f1 → n ≤ f2 →
    natDigitsAux f1 n = natDigitsAux f2 n := by
  intro f1
  induction f1 with
  | zero =>
    intro f2 n h1 _
    have : n = 0 := Nat.le_zero.mp h1
    subst this
    rw [natDigitsAux_zero_input, natDigitsAux_zero_input]
  | succ f ih =>
    intro f2 n h1 h2
    by_cases hn : n = 0
    · subst hn
      rw [natDigitsAux_zero_input, natDigitsAux_zero_input]
    · have hpos : 0 < n := Nat.pos_of_ne_zero hn
      cases f2 with
      | zero => omega
      | succ f2' =>
        simp only [natDigitsAux, if_neg hn]
        have hd : n / 10 < n := Nat.div_lt_self hpos (by omega)
        rw [ih f2' (n / 10) (by omega) (by omega)]

theorem natDigits_def (n : Nat) (h : 0 < n) :
    natDigits n = n % 10 :: natDigits (n / 10) := by
  have hn : n ≠ 0 := Nat.pos_iff_ne_zero.mp h
  cases n with
  | zero => omega
  | succ m =>
    show natDigitsAux (m + 1) (m + 1) = _
    simp only [natDigitsAux, if_neg hn]
    have hd : (m + 1) / 10 < m + 1 := Nat.div_lt_self h (by omega)
    rw [natDigitsAux_fuel m ((m + 1) / 10) ((m + 1) / 10) (by omega) le_rfl]
    rfl

theorem natDigits_lt (n : Nat) : ∀ d ∈ natDigits n, d < 10 := by
  induction n using Nat.strong_induction_on with
  | _ n ih =>
    by_cases hn : n = 0
    · subst hn
      intro d hd
      simp only [natDigits, natDigitsAux] at hd
      exact absurd hd (List.not_mem_nil d)
    · have hpos : 0 < n := Nat.pos_of_ne_zero hn
      rw [natDigits_def n hpos]
      intro d hd
      rcases List.mem_cons.mp hd with h | h
      · subst h
        exact Nat.mod_lt _ (by omega)
      · exact ih (n / 10) (Nat.div_lt_self hpos (by omega)) d h

theorem natToChars_ne_nil (n : Nat) : natToChars n ≠ [] := by
  by_cases hn : n = 0
  · subst hn
    simp [natToChars]
  · rw [natToChars, if_neg hn]
    have := natDigits_def n (Nat.pos_of_ne_zero hn)
    rw [this]
    simp

theorem natToChars_all_digits (n : Nat) :
    ∀ c ∈ natToChars n, isDigitC c = true := by
  by_cases hn : n = 0
  · subst hn
    intro c hc
    simp only [natToChars, if_pos, List.mem_singleton] at hc
    subst hc
    decide
  · rw [natToChars, if_neg hn]
    intro c hc
    rw [List.mem_reverse, List.mem_map] at hc
    obtain ⟨d, hd, hdc⟩ := hc
    subst hdc
    exact isDigitC_digitChar d (natDigits_lt n d hd)

theorem foldl_natDigits (n : Nat) : ∀ a : Nat,
    ((natDigits n).reverse.map digitChar).foldl (fun acc c => 10 * acc + (c.toNat - 48)) a
      = a * 10 ^ (natDigits n).length + n := by
  induction n using Nat.strong_induction_on with
  | _ n ih =>
    intro a
    by_cases hn : n = 0
    · subst hn
      show (([] : List Nat).reverse.map digitChar).foldl _ a = a * 10 ^ (0 : Nat) + 0
      simp
    · have hpos : 0 < n := Nat.pos_of_ne_zero hn
      rw [natDigits_def n hpos]
      rw [List.reverse_cons, List.map_append, List.foldl_append]
      have hlt : n / 10 < n := Nat.div_lt_self hpos (by omega)
      rw [ih (n / 10) hlt a]
      simp only [List.map_cons, List.map_nil, List.foldl_cons, List.foldl_nil,
        List.length_cons]
      rw [digitChar_toNat (n % 10) (Nat.mod_lt _ (by omega))]
      have hsub : 48 + n % 10 - 48 = n % 10 := by omega
      rw [hsub]
      have hdm : 10 * (n / 10) + n % 10 = n := Nat.div_add_mod n 10
      calc 10 * (a * 10 ^ (natDigits (n / 10)).length + n / 10) + n % 10
          = a * (10 * 10 ^ (natDigits (n / 10)).length)
            + (10 * (n / 10) + n % 10) := by ring
        _ = a * 10 ^ ((natDigits (n / 10)).length + 1) + n := by
            rw [hdm, pow_succ]
            ring

theorem natToChars_value (n : Nat) :
    (natToChars n).foldl (fun acc c => 10 * acc + (c.toNat - 48)) 0 = n := by
  by_cases hn : n = 0
  · subst hn
    decide
  · rw [natToChars, if_neg hn, ← List.map_reverse]
    rw [foldl_natDigits n 0]
    simp

/-! ## Codec lemmas: the primitive parsers -/

theorem takeWhile_append_all (p : Char → Bool) (l1 l2 : List Char)
    (h1 : ∀ c ∈ l1, p c = true)
    (h2 : ∀ c, l2.head? = some c → p c = false) :
    (l1 ++ l2).takeWhile p = l1 ∧ (l1 ++ l2).dropWhile p = l2 := by
  induction l1 with
  | nil =>
    simp only [List.nil_append]
    cases l2 with
    | nil => exact ⟨rfl, rfl⟩
    | cons c cs =>
      have hc : p c = false := h2 c rfl
      rw [List.takeWhile_cons, List.dropWhile_cons, hc]
      exact ⟨rfl, rfl⟩
  | cons c l1' ih =>
    have hc : p c = true := h1 c (List.mem_cons_self _ _)
    obtain ⟨iht, ihd⟩ := ih (fun d hd => h1 d (List.mem_cons_of_mem _ hd))
    rw [List.cons_append, List.takeWhile_cons, List.dropWhile_cons, hc]
    simp only [iht, ihd]
    exact ⟨rfl, rfl⟩

theorem parseNat_natToChars (n : Nat) (rest : List Char)
    (hnd : ∀ c, rest.head? = some c → isDigitC c = false) :
    parseNat (natToChars n ++ rest) = some (n, rest) := by
  obtain ⟨ht, hd⟩ :=
    takeWhile_append_all isDigitC (natToChars n) rest (natToChars_all_digits n) hnd
  rw [parseNat]
  simp only [ht, hd]
  rw [if_neg (by simp [List.isEmpty_iff, natToChars_ne_nil n])]
  rw [natToChars_value n]

theorem isDigitC_ne_minus (c : Char) (h : isDigitC c = true) : c ≠ '-' := by
  intro hc
  subst hc
  simp [isDigitC] at h

theorem parseInt_intToChars (x : Int) (rest : List Char)
    (hnd : ∀ c, rest.head? = some c → isDigitC c = false) :
    parseInt (intToChars x ++ rest) = some (x, rest) := by
  by_cases hx : x < 0
  · rw [intToChars, if_pos hx, List.cons_append]
    rw [parseInt]
    rw [if_pos rfl]
    rw [parseNat_natToChars x.natAbs rest hnd]
    simp only [Option.map_some']
    have : -(x.natAbs : Int) = x := by omega
    rw [this]
  · rw [intToChars, if_neg hx]
    cases hnc : natToChars x.natAbs with
    | nil => exact absurd hnc (natToChars_ne_nil _)
    | cons c cs =>
      have hcd : isDigitC c = true := by
        apply natToChars_all_digits x.natAbs
        rw [hnc]
        exact List.mem_cons_self _ _
      rw [List.cons_append, parseInt]
      rw [if_neg (isDigitC_ne_minus c hcd)]
      rw [← List.cons_append, ← hnc]
      rw [parseNat_natToChars x.natAbs rest hnd]
      simp only [Option.map_some']
      have : (x.natAbs : Int) = x := by omega
      rw [this]

theorem parseStr_append (s rest : List Char) (hq : quoteC ∉ s) :
    parseStr (s ++ quoteC :: rest) = some (s, rest) := by
  induction s with
  | nil =>
    rw [List.nil_append, parseStr]
    rw [if_pos rfl]
  | cons c s' ih =>
    simp only [List.mem_cons, not_or] at hq
    rw [List.cons_append, parseStr]
    rw [if_neg (fun h => hq.1 h.symm)]
    rw [ih hq.2]
    rfl

/-! ## Codec lemmas: tuples -/

theorem tupleTailChars_head_not_digit (xs : List Int) (rest : List Char) :
    ∀ c, (tupleTailChars xs ++ rest).head? = some c → isDigitC c = false := by
  intro c hc
  cases xs with
  | nil =>
    simp only [tupleTailChars, List.cons_append, List.head?_cons,
      Option.some.injEq] at hc
    subst hc
    decide
  | cons x xs' =>
    simp only [tupleTailChars, List.cons_append, List.head?_cons,
      Option.some.injEq] at hc
    subst hc
    decide

theorem intToChars_head (x : Int) :
    ∃ c cs, intToChars x = c :: cs ∧ (c = '-' ∨ isDigitC c = true) := by
  by_cases hx : x < 0
  · exact ⟨'-', natToChars x.natAbs, by rw [intToChars, if_pos hx], Or.inl rfl⟩
  · cases hnc : natToChars x.natAbs with
    | nil => exact absurd hnc (natToChars_ne_nil _)
    | cons c cs =>
      refine ⟨c, cs, by rw [intToChars, if_neg hx, hnc], Or.inr ?_⟩
      apply natToChars_all_digits x.natAbs
      rw [hnc]
      exact List.mem_cons_self _ _

theorem intToChars_head_ne_paren (x : Int) (c : Char) (cs : List Char)
    (h : intToChars x = c :: cs) : c ≠ ')' := by
  obtain ⟨c2, cs2, h2, hd⟩ := intToChars_head x
  rw [h] at h2
  injection h2 with hc _
  subst hc
  rcases hd with hd | hd
  · subst hd
    decide
  · intro hp
    subst hp
    exact absurd hd (by decide)

theorem parseTupleTail_close (fuel : Nat) (rest : List Char) :
    parseTupleTail fuel (')' :: rest) = some ([], rest) := by
  cases fuel <;> rfl

theorem parseTupleTail_comma_close (fuel : Nat) (rest : List Char) :
    parseTupleTail fuel (',' :: ')' :: rest) = some ([], rest) := by
  cases fuel <;> rfl

theorem parseTupleTail_step (f : Nat) (cs : List Char) (x : Int) (r1 : List Char)
    (h : parseInt cs = some (x, r1)) :
    parseTupleTail (f + 1) (',' :: ' ' :: cs)
      = (parseTupleTail f r1).map (fun q => (x :: q.1, q.2)) := by
  show (match parseInt cs with
    | none => none
    | some (x, r1) =>
      (parseTupleTail f r1).map (fun q : List Int × List Char => (x :: q.1, q.2))
    : Option (List Int × List Char)) = _
  rw [h]

theorem parseTupleTail_spec : ∀ (xs : List Int) (fuel : Nat), xs.length ≤ fuel →
    ∀ rest, parseTupleTail fuel (tupleTailChars xs ++ rest) = some (xs, rest) := by
  intro xs
  induction xs with
  | nil =>
    intro fuel _ rest
    rw [tupleTailChars, List.cons_append]
    exact parseTupleTail_close fuel rest
  | cons x xs' ih =>
    intro fuel hf rest
    cases fuel with
    | zero => simp at hf
    | succ f =>
      rw [tupleTailChars, List.cons_append, List.cons_append, List.append_assoc]
      rw [parseTupleTail_step f _ x (tupleTailChars xs' ++ rest)
        (parseInt_intToChars x _ (tupleTailChars_head_not_digit xs' rest))]
      rw [ih f (by simpa using hf) rest]
      rfl

theorem tupleChars_head (l : List Int) :
    ∃ body, tupleChars l = '(' :: body := by
  match l with
  | [] => exact ⟨[')'], rfl⟩
  | [x] => exact ⟨intToChars x ++ [',', ')'], rfl⟩
  | x :: y :: xs => exact ⟨intToChars x ++ tupleTailChars (y :: xs), rfl⟩

theorem parseTuple_close (fuel : Nat) (rest : List Char) :
    parseTuple fuel (')' :: rest) = some ([], rest) := by
  rw [parseTuple, if_pos rfl]

theorem parseTuple_step (fuel : Nat) (c0 : Char) (cs0 : List Char)
    (hc : c0 ≠ ')') (x : Int) (r1 : List Char)
    (h : parseInt (c0 :: cs0) = some (x, r1)) :
    parseTuple fuel (c0 :: cs0)
      = (parseTupleTail fuel r1).map (fun q => (x :: q.1, q.2)) := by
  rw [parseTuple, if_neg hc, h]

theorem parseTuple_spec (l : List Int) (fuel : Nat) (hf : l.length ≤ fuel)
    (body rest : List Char) (hb : tupleChars l = '(' :: body) :
    parseTuple fuel (body ++ rest) = some (l, rest) := by
  cases l with
  | nil =>
    simp only [tupleChars] at hb
    injection hb with _ hbody
    rw [← hbody, List.cons_append, parseTuple_close, List.nil_append]
  | cons x l2 =>
    cases l2 with
    | nil =>
      simp only [tupleChars] at hb
      injection hb with _ hbody
      obtain ⟨c0, cs0, hic, _⟩ := intToChars_head x
      have hint : parseInt (intToChars x ++ (',' :: ')' :: rest))
          = some (x, ',' :: ')' :: rest) := by
        apply parseInt_intToChars
        intro c hc
        simp only [List.head?_cons, Option.some.injEq] at hc
        subst hc
        decide
      rw [← hbody, List.append_assoc]
      have hsplit : (([',', ')'] : List Char) ++ rest) = ',' :: ')' :: rest := rfl
      rw [hsplit, hic, List.cons_append]
      rw [parseTuple_step fuel c0 _ (intToChars_head_ne_paren x c0 cs0 hic) x
        (',' :: ')' :: rest) (by rw [← List.cons_append, ← hic]; exact hint)]
      rw [parseTupleTail_comma_close]
      rfl
    | cons y xs =>
      simp only [tupleChars] at hb
      injection hb with _ hbody
      obtain ⟨c0, cs0, hic, _⟩ := intToChars_head x
      have hint : parseInt (intToChars x ++ (tupleTailChars (y :: xs) ++ rest))
          = some (x, tupleTailChars (y :: xs) ++ rest) :=
        parseInt_intToChars x _ (tupleTailChars_head_not_digit (y :: xs) rest)
      rw [← hbody, List.append_assoc, hic, List.cons_append]
      rw [parseTuple_step fuel c0 _ (intToChars_head_ne_paren x c0 cs0 hic) x
        (tupleTailChars (y :: xs) ++ rest)
        (by rw [← List.cons_append, ← hic]; exact hint)]
      rw [parseTupleTail_spec (y :: xs) fuel (by simpa using Nat.le_of_succ_le hf) rest]
      rfl

/-! ## Codec lemmas: values, pairs and the dict literal -/

theorem parseVal_quote (fuel : Nat) (s r : List Char) (hq : quoteC ∉ s) :
    parseVal fuel (quoteC :: (s ++ quoteC :: r)) = some (.str s, r) := by
  have hred : parseVal fuel (quoteC :: (s ++ quoteC :: r))
      = (parseStr (s ++ quoteC :: r)).map (fun p => (PyVal.str p.1, p.2)) := rfl
  rw [hred, parseStr_append s r hq]
  rfl

theorem parseVal_paren (fuel : Nat) (l : List Int) (body r : List Char)
    (hb : tupleChars l = '(' :: body) (hf : l.length ≤ fuel) :
    parseVal fuel ('(' :: (body ++ r)) = some (.tuple l, r) := by
  have hred : parseVal fuel ('(' :: (body ++ r))
      = (parseTuple fuel (body ++ r)).map (fun p => (PyVal.tuple p.1, p.2)) := rfl
  rw [hred, parseTuple_spec l fuel hf body r hb]
  rfl

theorem parsePairs_unfold (f : Nat) (rest : List Char) :
    parsePairs (f + 1) (quoteC :: rest)
      = (match parseStr rest with
         | none => none
         | some (k, r1) =>
           match r1 with
           | ':' :: ' ' :: r2 =>
             match parseVal f r2 with
             | none => none
             | some (v, r3) =>
               match r3 with
               | [] => none
               | c2 :: r4 =>
                 if c2 = rbraceC then some ([(k, v)], r4)
                 else
                   match c2, r4 with
                   | ',', ' ' :: r5 =>
                     (parsePairs f r5).map (fun q => ((k, v) :: q.1, q.2))
                   | _, _ => none
           | _ => none) := rfl

theorem parsePairs_header (descr : List Char) (shape : List Int) (hq : quoteC ∉ descr)
    (f : Nat) (hf : shape.length ≤ f) :
    parsePairs (f + 2)
      (quoteC :: (descrKeyCs ++ (quoteC :: ':' :: ' ' :: quoteC ::
        (descr ++ (quoteC :: ',' :: ' ' :: quoteC ::
          (shapeKeyCs ++ (quoteC :: ':' :: ' ' :: (tupleChars shape ++ [rbraceC]))))))))
      = some ([(descrKeyCs, .str descr), (shapeKeyCs, .tuple shape)], []) := by
  obtain ⟨body, hbody⟩ := tupleChars_head shape
  have hs1 := parseStr_append descrKeyCs
    (':' :: ' ' :: quoteC :: (descr ++ (quoteC :: ',' :: ' ' :: quoteC ::
      (shapeKeyCs ++ (quoteC :: ':' :: ' ' :: (tupleChars shape ++ [rbraceC]))))))
    (by decide)
  have hv1 := parseVal_quote (f + 1) descr
    (',' :: ' ' :: quoteC ::
      (shapeKeyCs ++ (quoteC :: ':' :: ' ' :: (tupleChars shape ++ [rbraceC])))) hq
  have hs2 := parseStr_append shapeKeyCs
    (':' :: ' ' :: (tupleChars shape ++ [rbraceC])) (by decide)
  have hv2 : parseVal f (tupleChars shape ++ [rbraceC])
      = some (.tuple shape, [rbraceC]) := by
    rw [hbody, List.cons_append]
    exact parseVal_paren f shape body [rbraceC] hbody hf
  rw [show (f + 2 : Nat) = (f + 1) + 1 from rfl, parsePairs_unfold (f + 1)]
  rw [hs1]
  simp only
  rw [hv1]
  simp only
  rw [if_neg (by decide : ¬ (',' : Char) = rbraceC)]
  rw [parsePairs_unfold f]
  rw [hs2]
  simp only
  rw [hv2]
  simp only
  rfl

theorem tupleTailChars_length (xs : List Int) :
    xs.length ≤ (tupleTailChars xs).length := by
  induction xs with
  | nil => simp [tupleTailChars]
  | cons x xs' ih =>
    simp only [tupleTailChars, List.length_cons, List.length_append]
    omega

theorem intToChars_length_pos (x : Int) : 0 < (intToChars x).length := by
  obtain ⟨c, cs, h, _⟩ := intToChars_head x
  rw [h]
  simp

theorem tupleChars_length (l : List Int) : l.length ≤ (tupleChars l).length := by
  cases l with
  | nil => simp [tupleChars]
  | cons x l2 =>
    cases l2 with
    | nil => simp [tupleChars]
    | cons y xs =>
      have h1 := tupleTailChars_length (y :: xs)
      have h2 := intToChars_length_pos x
      simp only [tupleChars, List.length_cons, List.length_append] at *
      omega

theorem parseDict_headerChars (descr : List Char) (shape : List Int)
    (hq : quoteC ∉ descr) :
    parseDict (headerChars descr shape)
      = some [(descrKeyCs, .str descr), (shapeKeyCs, .tuple shape)] := by
  have hnorm : headerChars descr shape
      = lbraceC :: (quoteC :: (descrKeyCs ++ (quoteC :: ':' :: ' ' :: quoteC ::
          (descr ++ (quoteC :: ',' :: ' ' :: quoteC ::
            (shapeKeyCs ++ (quoteC :: ':' :: ' ' ::
              (tupleChars shape ++ [rbraceC])))))))) := by
    rw [headerChars]
    simp only [List.cons_append, List.append_assoc]
  have hlen : shape.length + 1
      ≤ (descrKeyCs ++ (quoteC :: ':' :: ' ' :: quoteC ::
          (descr ++ (quoteC :: ',' :: ' ' :: quoteC ::
            (shapeKeyCs ++ (quoteC :: ':' :: ' ' ::
              (tupleChars shape ++ [rbraceC]))))))).length := by
    have := tupleChars_length shape
    simp only [List.length_append, List.length_cons]
    omega
  rw [hnorm]
  have hred : parseDict (lbraceC :: (quoteC :: (descrKeyCs ++ (quoteC :: ':' :: ' ' ::
      quoteC :: (descr ++ (quoteC :: ',' :: ' ' :: quoteC ::
        (shapeKeyCs ++ (quoteC :: ':' :: ' ' ::
          (tupleChars shape ++ [rbraceC])))))))))
      = (match parsePairs
          ((quoteC :: (descrKeyCs ++ (quoteC :: ':' :: ' ' :: quoteC ::
            (descr ++ (quoteC :: ',' :: ' ' :: quoteC ::
              (shapeKeyCs ++ (quoteC :: ':' :: ' ' ::
                (tupleChars shape ++ [rbraceC])))))))).length)
          (quoteC :: (descrKeyCs ++ (quoteC :: ':' :: ' ' :: quoteC ::
            (descr ++ (quoteC :: ',' :: ' ' :: quoteC ::
              (shapeKeyCs ++ (quoteC :: ':' :: ' ' ::
                (tupleChars shape ++ [rbraceC])))))))) with
        | none => none
        | some (prs, rem) => if rem.isEmpty then some prs else none) := rfl
  rw [hred]
  rw [List.length_cons]
  have heq : (descrKeyCs ++ (quoteC :: ':' :: ' ' :: quoteC ::
      (descr ++ (quoteC :: ',' :: ' ' :: quoteC ::
        (shapeKeyCs ++ (quoteC :: ':' :: ' ' ::
          (tupleChars shape ++ [rbraceC]))))))).length + 1
      = ((descrKeyCs ++ (quoteC :: ':' :: ' ' :: quoteC ::
          (descr ++ (quoteC :: ',' :: ' ' :: quoteC ::
            (shapeKeyCs ++ (quoteC :: ':' :: ' ' ::
              (tupleChars shape ++ [rbraceC]))))))).length - 1) + 2 := by
    omega
  rw [heq]
  rw [parsePairs_header descr shape hq _ (by omega)]
  rfl

/-! ## Codec lemmas: element table, reshape, and the round trip -/

theorem itemsize_pos (d : List Char) (n : Nat) (h : itemsize d = some n) : 0 < n := by
  rw [itemsize] at h
  split_ifs at h <;> injection h with h2 <;> omega

theorem itemsize_no_quote (d : List Char) (n : Nat) (h : itemsize d = some n) :
    quoteC ∉ d := by
  rw [itemsize] at h
  split_ifs at h <;> first | (subst_vars; decide) | injection h

theorem map_toNat_ofNat (s : List Nat) : (s.map Int.ofNat).map Int.toNat = s := by
  rw [List.map_map]
  have h : (Int.toNat ∘ Int.ofNat) = id := by
    funext n
    simp
  rw [h, List.map_id]

theorem resolveShape_exact (shape : List Nat) :
    resolveShape shape.prod (shape.map Int.ofNat) = some shape := by
  have hany : (shape.map Int.ofNat).any (fun x => decide (x < -1)) = false := by
    rw [List.any_eq_false]
    intro x hx
    rw [List.mem_map] at hx
    obtain ⟨m, _, hm⟩ := hx
    subst hm
    simp
    omega
  have hfil : (shape.map Int.ofNat).filter (fun x => decide (x = -1)) = [] := by
    rw [List.filter_eq_nil_iff]
    intro x hx
    rw [List.mem_map] at hx
    obtain ⟨m, _, hm⟩ := hx
    subst hm
    simp
  rw [resolveShape]
  rw [if_neg (by rw [hany]; simp)]
  rw [hfil]
  simp only [List.length_nil]
  rw [map_toNat_ofNat shape]
  rw [if_pos rfl]

/-- C2: decoding a blob written by the codec's writer — the 1-byte header
length at offset 8, the `L`-byte literal at offset 10, and the payload
reinterpretation — recovers the array bit-identically, for every array whose
element type is in the table, whose payload length matches `prod shape *
itemsize`, and whose header text fits the format's one length byte. -/
theorem claim_C2 (a : NDArray) (isz : Nat)
    (hdescr : itemsize a.descr = some isz)
    (hlen : a.payload.length = a.shape.prod * isz)
    (hhdr : (headerChars a.descr (a.shape.map Int.ofNat)).length < 256) :
    fastload (encode a) = some a := by
  have hqd : quoteC ∉ a.descr := itemsize_no_quote a.descr isz hdescr
  have hpos : 0 < isz := itemsize_pos a.descr isz hdescr
  have henc : encode a
      = magicBytes ++ ([(headerChars a.descr (a.shape.map Int.ofNat)).length % 256,
          (headerChars a.descr (a.shape.map Int.ofNat)).length / 256]
        ++ ((headerChars a.descr (a.shape.map Int.ofNat)).map Char.toNat ++ a.payload)) := by
    rw [encode]
    simp only [List.append_assoc]
  have h8 : (encode a)[8]?
      = some (headerChars a.descr (a.shape.map Int.ofNat)).length := by
    rw [henc]
    rw [List.getElem?_append_right (by simp [magicBytes])]
    simp [magicBytes]
    exact hhdr
  have hdrop10 : (encode a).drop 10
      = (headerChars a.descr (a.shape.map Int.ofNat)).map Char.toNat ++ a.payload := by
    rw [henc, ← List.append_assoc]
    exact List.drop_left' (by simp [magicBytes])
  have htakeL : (((headerChars a.descr (a.shape.map Int.ofNat)).map Char.toNat
      ++ a.payload)).take (headerChars a.descr (a.shape.map Int.ofNat)).length
      = (headerChars a.descr (a.shape.map Int.ofNat)).map Char.toNat :=
    List.take_left' (by simp)
  have hofnat : ((headerChars a.descr (a.shape.map Int.ofNat)).map Char.toNat).map
      Char.ofNat = headerChars a.descr (a.shape.map Int.ofNat) := by
    rw [List.map_map]
    have h : (Char.ofNat ∘ Char.toNat) = id := funext Char.ofNat_toNat
    rw [h, List.map_id]
  have hparse : parseDict ((((encode a).drop 10).take
        (headerChars a.descr (a.shape.map Int.ofNat)).length).map Char.ofNat)
      = some [(descrKeyCs, .str a.descr), (shapeKeyCs, .tuple (a.shape.map Int.ofNat))] := by
    rw [hdrop10, htakeL, hofnat]
    exact parseDict_headerChars a.descr (a.shape.map Int.ofNat) hqd
  have hdroptail : (encode a).drop
      (10 + (headerChars a.descr (a.shape.map Int.ofNat)).length) = a.payload := by
    rw [henc, ← List.append_assoc, ← List.append_assoc]
    exact List.drop_left' (by simp [magicBytes]; omega)
  have hl1 : lookupD [(descrKeyCs, PyVal.str a.descr),
      (shapeKeyCs, PyVal.tuple (a.shape.map Int.ofNat))] descrKeyCs
      = some (PyVal.str a.descr) := by
    rw [lookupD, if_pos rfl]
  have hl2 : lookupD [(descrKeyCs, PyVal.str a.descr),
      (shapeKeyCs, PyVal.tuple (a.shape.map Int.ofNat))] shapeKeyCs
      = some (PyVal.tuple (a.shape.map Int.ofNat)) := by
    rw [lookupD, if_neg (by decide), lookupD, if_pos rfl]
  simp only [fastload, h8, hparse, hl1, hl2, hdescr, hdroptail, hlen]
  rw [if_pos (Nat.mul_mod_left _ _)]
  rw [Nat.mul_div_cancel _ hpos]
  rw [resolveShape_exact a.shape]

/-- Witness for C2: the round trip at a concrete two-element float64 array. -/
theorem claim_C2_witness :
    itemsize (['<', 'f', '8'] : List Char) = some 8
    ∧ ([0, 1, 2, 3, 4, 5, 6, 7, 8, 9, 10, 11, 12, 13, 14, 15] : List Nat).length
        = ([2] : List Nat).prod * 8
    ∧ (headerChars ['<', 'f', '8'] (([2] : List Nat).map Int.ofNat)).length < 256
    ∧ fastload (encode ⟨['<', 'f', '8'], [2],
          [0, 1, 2, 3, 4, 5, 6, 7, 8, 9, 10, 11, 12, 13, 14, 15]⟩)
        = some ⟨['<', 'f', '8'], [2],
            [0, 1, 2, 3, 4, 5, 6, 7, 8, 9, 10, 11, 12, 13, 14, 15]⟩ :=
  ⟨rfl, by decide, by decide,
    claim_C2 ⟨['<', 'f', '8'], [2], [0, 1, 2, 3, 4, 5, 6, 7, 8, 9, 10, 11, 12, 13, 14, 15]⟩
      8 rfl (by decide) (by decide)⟩

/-- C7: the claim says decode fails with `MalformedHeader` whenever the
declared `product(shape) * element_size` disagrees with the payload length.
Counterexample: a header declaring shape `(-1,)` over a 16-byte float64
payload (declared product × size = -8 ≠ 16) decodes successfully, because
reshape infers the `-1` dimension from the payload. -/
theorem claim_C7_counterexample :
    fastload negShapeBlob
      = some ⟨['<', 'f', '8'], [2], [0, 1, 2, 3, 4, 5, 6, 7, 8, 9, 10, 11, 12, 13, 14, 15]⟩
    ∧ parseDict (((negShapeBlob.drop 10).take
          (headerChars ['<', 'f', '8'] [-1]).length).map Char.ofNat)
        = some [(descrKeyCs, .str ['<', 'f', '8']), (shapeKeyCs, .tuple [-1])]
    ∧ itemsize ['<', 'f', '8'] = some 8
    ∧ (negShapeBlob.drop (10 + (headerChars ['<', 'f', '8'] [-1]).length)).length = 16
    ∧ ([-1] : List Int).prod * 8 ≠ (16 : Int) :=
  ⟨by decide, by decide, rfl, by decide, by decide⟩

/-- C7 (amended): a blob whose parsed header lacks the `descr` or `shape`
key fails to decode; and for headers declaring only non-negative dimensions
(the ArrayHeader invariant), decode fails whenever
`product(shape) * element_size` disagrees with the payload length.  (A
negative dimension escapes via reshape's `-1` inference — see the
counterexample.) -/
theorem claim_C7 (raw : List Nat) (hl : Nat) (hdr : List (List Char × PyVal))
    (h8 : raw[8]? = some hl)
    (hparse : parseDict (((raw.drop 10).take hl).map Char.ofNat) = some hdr) :
    ((lookupD hdr descrKeyCs = none ∨ lookupD hdr shapeKeyCs = none) →
      fastload raw = none)
    ∧ (∀ descr shape isz,
        lookupD hdr descrKeyCs = some (.str descr) →
        lookupD hdr shapeKeyCs = some (.tuple shape) →
        itemsize descr = some isz →
        (∀ x ∈ shape, 0 ≤ x) →
        (shape.map Int.toNat).prod * isz ≠ (raw.drop (10 + hl)).length →
        fastload raw = none) := by
  constructor
  · rintro (hd | hs)
    · simp only [fastload, h8, hparse, hd]
    · simp only [fastload, h8, hparse, hs]
      cases hdk : lookupD hdr descrKeyCs with
      | none => rfl
      | some v => cases v <;> rfl
  · intro descr shape isz hdk hsk hisz hnn hmis
    simp only [fastload, h8, hparse, hdk, hsk, hisz]
    by_cases hm : (raw.drop (10 + hl)).length % isz = 0
    · rw [if_pos hm]
      have hres : resolveShape ((raw.drop (10 + hl)).length / isz) shape = none := by
        have hany : shape.any (fun x => decide (x < -1)) = false := by
          rw [List.any_eq_false]
          intro x hx
          simp only [decide_eq_true_eq]
          have := hnn x hx
          omega
        have hfil : shape.filter (fun x => decide (x = -1)) = [] := by
          rw [List.filter_eq_nil_iff]
          intro x hx
          simp only [decide_eq_true_eq]
          have := hnn x hx
          omega
        rw [resolveShape]
        rw [if_neg (by rw [hany]; simp)]
        rw [hfil]
        simp only [List.length_nil]
        rw [if_neg ?hcond]
        case hcond =>
          intro heq
          apply hmis
          rw [heq, Nat.div_mul_cancel (Nat.dvd_of_mod_eq_zero hm)]
      rw [hres]
    · rw [if_neg hm]

/-- Witness for C7 (amended) at a concrete length-mismatch blob. -/
theorem claim_C7_witness :
    mismatchBlob[8]? = some (headerChars ['<', 'f', '8'] [3]).length
    ∧ parseDict (((mismatchBlob.drop 10).take
          (headerChars ['<', 'f', '8'] [3]).length).map Char.ofNat)
        = some [(descrKeyCs, .str ['<', 'f', '8']), (shapeKeyCs, .tuple [3])]
    ∧ itemsize ['<', 'f', '8'] = some 8
    ∧ (∀ x ∈ ([3] : List Int), (0 : Int) ≤ x)
    ∧ (([3] : List Int).map Int.toNat).prod * 8
        ≠ (mismatchBlob.drop (10 + (headerChars ['<', 'f', '8'] [3]).length)).length
    ∧ fastload mismatchBlob = none := by
  have h := claim_C7 mismatchBlob (headerChars ['<', 'f', '8'] [3]).length
    [(descrKeyCs, .str ['<', 'f', '8']), (shapeKeyCs, .tuple [3])]
    (by decide) (by decide)
  exact ⟨by decide, by decide, rfl, by decide, by decide,
    h.2 ['<', 'f', '8'] [3] 8 rfl rfl rfl (by decide) (by decide)⟩

end Cubicasa
